import Mathlib

/-!
Verification of `cmd/eval.go`.

A shallow embedding of the two algorithms of `src/cmd/eval.go`:

* `dashdashArgsToMap`, the parser that turns the tokens after `--` into the
  entrypoint argument map, and
* `printVertex`, the recursive pretty printer of the MuGL graph, together with
  the root loop at the end of `newEvalCmd`.

Go strings are byte sequences and are indexed by byte, so a token is modelled
as a list of byte values.  A Go run-time panic (index out of range, slice
bounds out of range) is modelled as an explicit `Fault` result.
-/

namespace Eval

/-! ## Data model of `dashdashArgsToMap` -/

/-- A Go string: the sequence of its bytes. -/
abbrev GoString := List Nat

/-- Bytes of an ASCII literal, for writing tokens readably. -/
def ascii (s : String) : GoString := s.toList.map Char.toNat

/-- The byte of the dash character. -/
def byteDash : Nat := 45

/-- The byte of the equals character. -/
def byteEq : Nat := 61

/-- The literal compared against `arg[0:3]`, the bytes of the text no-dash. -/
def strNo : GoString := [110, 111, 45]

/-- A value stored in `core.Args`: the code stores only strings and booleans. -/
inductive Value where
  | str (s : GoString)
  | bool (b : Bool)
  deriving DecidableEq, Repr

/-- The map `core.Args`, as an association list with at most one entry per key
(entries are only ever written with `assign`). -/
abbrev Args := List (GoString × Value)

/-- The map write `mapped[k] = v`: replaces the entry of `k` when there is one,
adds the entry otherwise. -/
def assign : Args → GoString → Value → Args
  | [], k, v => [(k, v)]
  | (k0, v0) :: rest, k, v =>
    if k0 = k then (k, v) :: rest else (k0, v0) :: assign rest k v

/-- The map read `mapped[k]`. -/
def lookup : Args → GoString → Option Value
  | [], _ => none
  | (k0, v0) :: rest, k => if k0 = k then some v0 else lookup rest k

/-- The run-time panics the indexing and slicing expressions can raise. -/
inductive Fault where
  | indexOutOfRange
  | sliceBoundsOutOfRange
  deriving DecidableEq, Repr

/-- Result of code that may panic. -/
inductive Outcome (α : Type) where
  | ok (a : α)
  | fault (f : Fault)
  deriving DecidableEq, Repr

/-! ## The code of `dashdashArgsToMap` -/

/-- The index expression `s[0]`: panics on the empty string. -/
def index0 : GoString → Outcome Nat
  | [] => .fault .indexOutOfRange
  | c :: _ => .ok c

/-- Lines 113-118: eat one or two dashes at the start of the token. -/
def eatDashes (arg : GoString) : Outcome GoString :=
  match index0 arg with
  | .fault f => .fault f
  | .ok c =>
    if c = byteDash then
      match index0 (arg.drop 1) with
      | .fault f => .fault f
      | .ok c1 => if c1 = byteDash then .ok ((arg.drop 1).drop 1) else .ok (arg.drop 1)
    else .ok arg

/-- The call `strings.IndexByte(s, c)`: index of the first byte equal to `c`;
`none` stands for the result `-1`. -/
def indexByte : GoString → Nat → Option Nat
  | [], _ => none
  | b :: rest, c => if b = c then some 0 else (indexByte rest c).map (· + 1)

/-- Line 125, the condition `i+1 < len(args) && args[i+1][0] != '-'`, where
`next` is `args[i+1]` when `i+1 < len(args)`. -/
def nextIsValue : Option GoString → Outcome Bool
  | none => .ok false
  | some next =>
    match index0 next with
    | .fault f => .fault f
    | .ok c => .ok (decide (c ≠ byteDash))

/-- The slice expression `arg[0:3]`: panics when `arg` has fewer than 3 bytes. -/
def slice03 (arg : GoString) : Outcome GoString :=
  if arg.length < 3 then .fault .sliceBoundsOutOfRange else .ok (arg.take 3)

/-- One iteration of the loop, lines 110-136, on the token `args[i]` and the
following token when there is one: the key and value written to the map, and
whether the iteration executed the extra `i++` of line 128. -/
def loopBody (tok : GoString) (next : Option GoString) :
    Outcome (GoString × Value × Bool) :=
  match eatDashes tok with
  | .fault f => .fault f
  | .ok arg =>
    match indexByte arg byteEq with
    | some eq => .ok (arg.take eq, .str (arg.drop (eq + 1)), false)
    | none =>
      match nextIsValue next with
      | .fault f => .fault f
      | .ok true => .ok (arg, .str (next.getD []), true)
      | .ok false =>
        match slice03 arg with
        | .fault f => .fault f
        | .ok p =>
          if p = strNo then .ok (arg.drop 3, .bool false, false)
          else .ok (arg, .bool true, false)

/-- The loop of lines 109-137 on the tokens from index `i` on, with the map
built so far. -/
def dashdashLoop : List GoString → Args → Outcome Args
  | [], mapped => .ok mapped
  | [tok], mapped =>
    match loopBody tok none with
    | .fault f => .fault f
    | .ok (k, v, _) => .ok (assign mapped k v)
  | tok :: next :: rest, mapped =>
    match loopBody tok (some next) with
    | .fault f => .fault f
    | .ok (k, v, true) => dashdashLoop rest (assign mapped k v)
    | .ok (k, v, false) => dashdashLoop (next :: rest) (assign mapped k v)

/-- The function `dashdashArgsToMap`, lines 106-140. -/
def dashdashArgsToMap (args : List GoString) : Outcome Args :=
  dashdashLoop args []

/-- Removal of one leading dash, when the string begins with one. -/
def dropDash : GoString → GoString
  | [] => []
  | c :: rest => if c = byteDash then rest else c :: rest

/-- The candidate key of a token in the words of the specification: the token
with its leading dash removed if present, then the next dash removed if
present.  The code computes it with `eatDashes`, which can panic. -/
def candidate (t : GoString) : GoString := dropDash (dropDash t)

/-! ## Graph rendering: `printVertex` and the root loop of `newEvalCmd` -/

/-- What the renderer reads of a `graph.Graph`: for every vertex the rendered
type label `v.Obj().Type()` and the ordered out-edge targets `v.Outs()`.
Vertices are compared by identity, here by equality on `V`. -/
structure Graph (V : Type) where
  type : V → String
  outs : V → List V

/-- A `for _, x := range xs` loop whose body threads the `shown` map and appends
to the output; `none` when some iteration does not return. -/
def rangeLoop {V α : Type} (body : V → List V → Option (List V × List α)) :
    List V → List V → Option (List V × List α)
  | [], shown => some (shown, [])
  | x :: rest, shown =>
    match body x shown with
    | none => none
    | some (shown1, out1) =>
      match rangeLoop body rest shown1 with
      | none => none
      | some (shown2, out2) => some (shown2, out1 ++ out2)

/-- The function `printVertex`, lines 90-101.  `shown` lists the vertices whose
entry in the map is `true`; the result is the final `shown` and the texts
written by the successive `fmt.Printf` calls.  `fuel` bounds the depth of the
recursion; `none` means the bound was reached. -/
def printVertex {V : Type} [DecidableEq V] (g : Graph V) :
    Nat → V → List V → String → Option (List V × List String)
  | 0, _, _, _ => none
  | fuel + 1, v, shown, indent =>
    if v ∈ shown then
      some (shown, [indent ++ g.type v ++ ": <cycle...>\n"])
    else
      match rangeLoop (fun out s => printVertex g fuel out s (indent ++ "    -> "))
          (g.outs v) (v :: shown) with
      | none => none
      | some (shown1, out) => some (shown1, (indent ++ g.type v ++ ":\n") :: out)

/-- Lines 77-80 of `newEvalCmd`: a fresh `shown` map, then `printVertex` on each
root in order with empty indentation. -/
def render {V : Type} [DecidableEq V] (g : Graph V) (fuel : Nat) (roots : List V) :
    Option (List V × List String) :=
  rangeLoop (fun root s => printVertex g fuel root s "") roots []

/-- The text on standard output after the given writes. -/
def stdout (writes : List String) : String := String.join writes

/-- One arrival of the traversal at a vertex: the indentation, the vertex, and
whether the arrival took the already-shown branch (line 93) or the expanding
branch (lines 95-99). -/
structure Visit (V : Type) where
  indent : String
  vertex : V
  cycle : Bool
  deriving DecidableEq

/-- The text `printVertex` writes at an arrival. -/
def Visit.text {V : Type} (g : Graph V) (e : Visit V) : String :=
  if e.cycle then e.indent ++ g.type e.vertex ++ ": <cycle...>\n"
  else e.indent ++ g.type e.vertex ++ ":\n"

/-- The function `printVertex` instrumented to record the arrivals instead of
their texts; `printVertex_eq_visits` relates the two. -/
def printVertexVisits {V : Type} [DecidableEq V] (g : Graph V) :
    Nat → V → List V → String → Option (List V × List (Visit V))
  | 0, _, _, _ => none
  | fuel + 1, v, shown, indent =>
    if v ∈ shown then
      some (shown, [⟨indent, v, true⟩])
    else
      match rangeLoop (fun out s => printVertexVisits g fuel out s (indent ++ "    -> "))
          (g.outs v) (v :: shown) with
      | none => none
      | some (shown1, out) => some (shown1, ⟨indent, v, false⟩ :: out)

/-- The root loop of `newEvalCmd` over the instrumented `printVertex`. -/
def renderVisits {V : Type} [DecidableEq V] (g : Graph V) (fuel : Nat) (roots : List V) :
    Option (List V × List (Visit V)) :=
  rangeLoop (fun root s => printVertexVisits g fuel root s "") roots []

/-- The edge relation of the graph. -/
def Graph.Edge {V : Type} (g : Graph V) (a b : V) : Prop := b ∈ g.outs a

/-- A vertex is reachable when a path of out-edges leads to it from a root. -/
def Graph.Reachable {V : Type} (g : Graph V) (roots : List V) (v : V) : Prop :=
  ∃ r ∈ roots, Relation.ReflTransGen g.Edge r v

/-- The diamond A → [B, C], B → [D], C → [D] on vertices 0..3. -/
def diamond : Graph (Fin 4) where
  type := fun v => match v with
    | 0 => "A"
    | 1 => "B"
    | 2 => "C"
    | 3 => "D"
  outs := fun v => match v with
    | 0 => [1, 2]
    | 1 => [3]
    | 2 => [3]
    | 3 => []

/-- The cycle A → B → C → A on vertices 0..2. -/
def triangle : Graph (Fin 3) where
  type := fun v => match v with
    | 0 => "A"
    | 1 => "B"
    | 2 => "C"
  outs := fun v => match v with
    | 0 => [1]
    | 1 => [2]
    | 2 => [0]

/-- The vertices expanded in a run: the vertices of its arrivals that took the
expanding branch, in order. -/
def fullVertices {V : Type} (visits : List (Visit V)) : List V :=
  (visits.filter (fun e => !e.cycle)).map Visit.vertex

/-- Number of vertices not yet in `shown`: the measure that decreases at each
expansion. -/
def unshownCount {V : Type} [Fintype V] [DecidableEq V] (shown : List V) : Nat :=
  (Finset.univ.filter (fun x => x ∉ shown)).card

/-- The arrivals are marked consistently with a `shown` set that starts at `s`
and grows by each arrival: an arrival is a cycle marker exactly when its vertex
is in the set at that moment. -/
def Marked {V : Type} : List V → List (Visit V) → Prop
  | _, [] => True
  | s, e :: rest => (e.cycle = true ↔ e.vertex ∈ s) ∧ Marked (e.vertex :: s) rest

/-- What a completed traversal from the vertices `starts`, entered with the
shown set `s`, guarantees of its final shown set `t` and its arrivals `out`. -/
structure RunInv {V : Type} (g : Graph V) (starts s t : List V) (out : List (Visit V)) :
    Prop where
  shown_eq : t = (fullVertices out).reverse ++ s
  fresh : ∀ x ∈ fullVertices out, x ∉ s
  nodup : (fullVertices out).Nodup
  reach : ∀ x ∈ fullVertices out, ∃ r ∈ starts, Relation.ReflTransGen g.Edge r x
  starts_shown : ∀ x ∈ starts, x ∈ t
  closed : ∀ x ∈ fullVertices out, ∀ y ∈ g.outs x, y ∈ t
  marked : Marked s out
  visited_shown : ∀ e ∈ out, e.vertex ∈ t

/-! ## Vocabulary of the later claims -/

/-- The indentation unit repeated `n` times. -/
def indentOf (n : Nat) : String := String.join (List.replicate n "    -> ")

/-- The vertices of the list form a chain of single out-edges, each to the next
vertex of the list, the last one back to `first`. -/
def IsCycleChain {V : Type} (g : Graph V) (first : V) : List V → Prop
  | [] => True
  | [x] => g.outs x = [first]
  | x :: y :: rest => g.outs x = [y] ∧ IsCycleChain g first (y :: rest)

/-- The respelling of a token in the words of the specification: a token made
of one dash and a non-empty key that does not begin with a dash gets a second
dash; every other token is kept. -/
def respell : GoString → GoString
  | [] => []
  | c :: k =>
    if c = byteDash ∧ k ≠ [] ∧ k.head? ≠ some byteDash then byteDash :: byteDash :: k
    else c :: k

/-- The end of the path that starts at `v` and follows the out-edges with the
given positions in the successive out-edge lists; `none` when a position is
past the end of a list. -/
def walk {V : Type} (g : Graph V) : List Nat → V → Option V
  | [], v => some v
  | j :: p, v =>
    match (g.outs v)[j]? with
    | none => none
    | some w => walk g p w

/-- The end of the path that starts at the entry of `starts` at the first
position of the list and then follows out-edges as `walk` does; the empty list
is no path. -/
def walkFrom {V : Type} (g : Graph V) (starts : List V) : List Nat → Option V
  | [] => none
  | i :: p =>
    match starts[i]? with
    | none => none
    | some v => walk g p v

/-- Every vertex is the end of at most one sequence of positions from `starts`,
a position in `starts` followed by positions in the successive out-edge lists.
This is stronger than `AtMostOnePath`: it also excludes a root listed twice and
two out-edges of one vertex to the same target. -/
def UniquePaths {V : Type} (g : Graph V) (starts : List V) : Prop :=
  ∀ (p q : List Nat) (x : V), walkFrom g starts p = some x → walkFrom g starts q = some x →
    p = q

/-- A loop over a list of vertices that concatenates the listings of its body. -/
def preorderLoop {V : Type} (body : V → Option (List String)) : List V → Option (List String)
  | [] => some []
  | x :: rest =>
    match body x with
    | none => none
    | some out1 =>
      match preorderLoop body rest with
      | none => none
      | some out2 => some (out1 ++ out2)

/-- The plain pre-order listing in the words of the specification: the line of
the vertex, then the listings of its out-edge targets in order, one unit
deeper, with no visited set and no cycle marker. -/
def preorder {V : Type} (g : Graph V) : Nat → V → String → Option (List String)
  | 0, _, _ => none
  | fuel + 1, v, indent =>
    match preorderLoop (fun out => preorder g fuel out (indent ++ "    -> ")) (g.outs v) with
    | none => none
    | some out => some ((indent ++ g.type v ++ ":\n") :: out)

/-- The cycle of `triangle` with every vertex renamed to its successor. -/
def triangleRot : Graph (Fin 3) where
  type := fun v => match v with
    | 1 => "A"
    | 2 => "B"
    | 0 => "C"
  outs := fun v => match v with
    | 1 => [2]
    | 2 => [0]
    | 0 => [1]

/-- The graph with the single edge A → B on vertices 0 and 1. -/
def edgePair : Graph (Fin 2) where
  type := fun v => match v with
    | 0 => "A"
    | 1 => "B"
  outs := fun v => match v with
    | 0 => [1]
    | 1 => []

/-- The graph with the single vertex A and no edge. -/
def loneVertex : Graph (Fin 1) where
  type := fun _ => "A"
  outs := fun _ => []

/-- The graph with two parallel edges A → B on vertices 0 and 1. -/
def doubledEdge : Graph (Fin 2) where
  type := fun v => match v with
    | 0 => "A"
    | 1 => "B"
  outs := fun v => match v with
    | 0 => [1, 1]
    | 1 => []

/-- A path to `v` in the words of the specification: a sequence of vertices
that starts at a root, in which each vertex is followed by the target of one of
its out-edges, and that ends at `v`. -/
def IsPathTo {V : Type} (g : Graph V) (roots : List V) (l : List V) (v : V) : Prop :=
  (∃ r ∈ roots, l.head? = some r) ∧ List.Chain' g.Edge l ∧ l.getLast? = some v

/-- Every vertex is reachable from the roots by at most one path. -/
def AtMostOnePath {V : Type} (g : Graph V) (roots : List V) : Prop :=
  ∀ (l1 l2 : List V) (v : V), IsPathTo g roots l1 v → IsPathTo g roots l2 v → l1 = l2

/-- The vertices met along `walk`, the start included. -/
def trail {V : Type} (g : Graph V) : List Nat → V → Option (List V)
  | [], v => some [v]
  | j :: p, v =>
    match (g.outs v)[j]? with
    | none => none
    | some w => (trail g p w).map (fun l => v :: l)

/-! ## Lemmas on the argument parser -/

theorem eatDashes_of_candidate (t : GoString) (h : candidate t ≠ []) :
    eatDashes t = .ok (candidate t) := by
  rcases t with _ | ⟨c, r⟩
  · simp [candidate, dropDash] at h
  · by_cases hc : c = byteDash
    · subst hc
      rcases r with _ | ⟨c1, r1⟩
      · simp [candidate, dropDash] at h
      · by_cases hc1 : c1 = byteDash <;> simp [eatDashes, index0, candidate, dropDash, hc1]
    · simp [eatDashes, index0, candidate, dropDash, hc]

theorem eatDashes_ok (t arg : GoString) (h : eatDashes t = .ok arg) :
    arg = candidate t := by
  rcases t with _ | ⟨c, r⟩
  · simp [eatDashes, index0] at h
  · by_cases hc : c = byteDash
    · subst hc
      rcases r with _ | ⟨c1, r1⟩
      · simp [eatDashes, index0] at h
      · by_cases hc1 : c1 = byteDash <;>
          simp [eatDashes, index0, candidate, dropDash, hc1] at h ⊢ <;> exact h.symm
    · simp [eatDashes, index0, candidate, dropDash, hc] at h ⊢
      exact h.symm

theorem indexByte_none (s : GoString) (c : Nat) (h : c ∉ s) : indexByte s c = none := by
  induction s with
  | nil => rfl
  | cons b rest ih =>
    simp only [List.mem_cons, not_or] at h
    simp [indexByte, Ne.symm h.1, ih h.2]

theorem indexByte_append (k v : GoString) (c : Nat) (h : c ∉ k) :
    indexByte (k ++ c :: v) c = some k.length := by
  induction k with
  | nil => simp [indexByte]
  | cons b rest ih =>
    simp only [List.mem_cons, not_or] at h
    simp [indexByte, Ne.symm h.1, ih h.2]

theorem indexByte_pos (s : GoString) (c n : Nat) (h : indexByte s c = some n)
    (hs : s.head? ≠ some c) : 0 < n := by
  rcases s with _ | ⟨b, rest⟩
  · simp [indexByte] at h
  · have hb : b ≠ c := by simpa using hs
    rw [indexByte, if_neg hb] at h
    cases hi : indexByte rest c <;> simp [hi] at h
    omega

theorem loopBody_next_dash (tok t : GoString) (ht : t.head? = some byteDash) :
    loopBody tok (some t) = loopBody tok none := by
  rcases t with _ | ⟨c, r⟩
  · simp at ht
  · simp only [List.head?_cons, Option.some.injEq] at ht
    subst ht
    simp [loopBody, nextIsValue, index0]

theorem dashdashLoop_single (t : GoString) (m : Args) :
    dashdashLoop [t] m =
      match loopBody t none with
      | .fault f => .fault f
      | .ok (k, v, _) => .ok (assign m k v) := by
  simp [dashdashLoop]

theorem loopBody_none_flag (tok k : GoString) (v : Value) (b : Bool)
    (h : loopBody tok none = .ok (k, v, b)) : b = false := by
  unfold loopBody at h
  simp only [nextIsValue] at h
  repeat' split at h
  all_goals simp_all

theorem dashdashLoop_cons2 (a b : GoString) (rest : List GoString) (m : Args) :
    dashdashLoop (a :: b :: rest) m =
      match loopBody a (some b) with
      | .fault f => .fault f
      | .ok (k, v, true) => dashdashLoop rest (assign m k v)
      | .ok (k, v, false) => dashdashLoop (b :: rest) (assign m k v) := by
  rw [dashdashLoop]

theorem dashdashLoop_snoc (t : GoString) (ht : t.head? = some byteDash) :
    ∀ (n : Nat) (args : List GoString) (m : Args), args.length ≤ n →
      dashdashLoop (args ++ [t]) m =
        match dashdashLoop args m with
        | .fault f => .fault f
        | .ok m1 => dashdashLoop [t] m1 := by
  intro n
  induction n with
  | zero =>
    intro args m h
    have : args = [] := List.length_eq_zero.mp (Nat.le_zero.mp h)
    subst this
    simp [dashdashLoop]
  | succ n ih =>
    intro args m h
    rcases args with _ | ⟨a, _ | ⟨b, rest⟩⟩
    · simp [dashdashLoop]
    · simp only [List.singleton_append]
      rw [dashdashLoop_cons2, loopBody_next_dash a t ht, dashdashLoop_single a m]
      rcases hb : loopBody a none with ⟨k, v, b⟩ | f
      · have := loopBody_none_flag a k v b hb
        subst this
        simp [dashdashLoop]
      · simp
    · simp only [List.cons_append]
      rw [dashdashLoop_cons2 a b (rest ++ [t]), dashdashLoop_cons2 a b rest]
      rcases loopBody a (some b) with ⟨k, v, c⟩ | f
      · cases c
        · have := ih (b :: rest) (assign m k v) (by simp at h ⊢; omega)
          simpa using this
        · have := ih rest (assign m k v) (by simp at h ⊢; omega)
          simpa using this
      · simp

theorem assign_keys (m : Args) (k : GoString) (v : Value) (kv : GoString × Value)
    (h : kv ∈ assign m k v) : kv.1 = k ∨ kv ∈ m := by
  induction m with
  | nil => simp [assign] at h; simp [h]
  | cons e rest ih =>
    obtain ⟨k0, v0⟩ := e
    by_cases hk : k0 = k
    · simp only [assign, hk, if_true, List.mem_cons] at h
      rcases h with h | h
      · simp [h]
      · right; simp [h]
    · simp only [assign, hk, if_false, List.mem_cons] at h
      rcases h with h | h
      · right; simp [h]
      · rcases ih h with h1 | h1
        · exact Or.inl h1
        · right; simp [h1]

theorem lookup_assign (m : Args) (k : GoString) (v : Value) :
    lookup (assign m k v) k = some v := by
  induction m with
  | nil => simp [assign, lookup]
  | cons e rest ih =>
    obtain ⟨k0, v0⟩ := e
    by_cases hk : k0 = k
    · simp [assign, lookup, hk]
    · simp [assign, lookup, hk, ih]

theorem lookup_assign_ne (m : Args) (k k1 : GoString) (v : Value) (h : k ≠ k1) :
    lookup (assign m k v) k1 = lookup m k1 := by
  induction m with
  | nil => simp [assign, lookup, h]
  | cons e rest ih =>
    obtain ⟨k0, v0⟩ := e
    by_cases hk : k0 = k
    · subst hk
      simp [assign, lookup, h]
    · by_cases hk1 : k0 = k1
      · subst hk1
        simp [assign, lookup, hk]
      · simp [assign, lookup, hk, hk1, ih]

theorem eatDashes_dashdash (k : GoString) :
    eatDashes (byteDash :: byteDash :: k) = .ok k := by
  simp [eatDashes, index0]

theorem loopBody_key_ne_nil (tok : GoString) (next : Option GoString) (k : GoString)
    (v : Value) (b : Bool) (h : loopBody tok next = .ok (k, v, b))
    (h1 : candidate tok ≠ []) (h2 : (candidate tok).head? ≠ some byteEq)
    (h3 : candidate tok ≠ strNo) : k ≠ [] := by
  unfold loopBody at h
  rw [eatDashes_of_candidate tok h1] at h
  simp only at h
  split at h
  · rename_i eq heq
    have hpos := indexByte_pos _ _ _ heq h2
    simp only [Outcome.ok.injEq, Prod.mk.injEq] at h
    rw [← h.1]
    intro hnil
    rcases List.take_eq_nil_iff.mp hnil with h0 | h0
    · omega
    · exact h1 h0
  · split at h
    · cases h
    · simp only [Outcome.ok.injEq, Prod.mk.injEq] at h
      rw [← h.1]; exact h1
    · split at h
      · cases h
      · rename_i p hp
        unfold slice03 at hp
        split at hp
        · cases hp
        · simp only [Outcome.ok.injEq] at hp
          split at h
          · rename_i hno
            simp only [Outcome.ok.injEq, Prod.mk.injEq] at h
            rw [← h.1]
            intro hnil
            apply h3
            have := List.take_append_drop 3 (candidate tok)
            rw [hnil, hp, hno] at this
            simpa using this.symm
          · simp only [Outcome.ok.injEq, Prod.mk.injEq] at h
            rw [← h.1]; exact h1

theorem dashdashLoop_keys_ne_nil :
    ∀ (n : Nat) (args : List GoString) (m0 m : Args), args.length ≤ n →
      (∀ t ∈ args, candidate t ≠ [] ∧ (candidate t).head? ≠ some byteEq ∧
        candidate t ≠ strNo) →
      (∀ kv ∈ m0, kv.1 ≠ []) → dashdashLoop args m0 = .ok m → ∀ kv ∈ m, kv.1 ≠ [] := by
  intro n
  induction n with
  | zero =>
    intro args m0 m h _ hm0 hrun
    have : args = [] := List.length_eq_zero.mp (Nat.le_zero.mp h)
    subst this
    simp only [dashdashLoop, Outcome.ok.injEq] at hrun
    subst hrun
    exact hm0
  | succ n ih =>
    intro args m0 m h hwf hm0 hrun
    have hstep : ∀ (a : GoString) (nx : Option GoString) (k : GoString) (v : Value)
        (b : Bool), a ∈ args → loopBody a nx = .ok (k, v, b) →
        ∀ kv ∈ assign m0 k v, kv.1 ≠ [] := by
      intro a nx k v b ha hb kv hkv
      obtain ⟨w1, w2, w3⟩ := hwf a ha
      rcases assign_keys m0 k v kv hkv with hk | hk
      · rw [hk]; exact loopBody_key_ne_nil a nx k v b hb w1 w2 w3
      · exact hm0 kv hk
    rcases args with _ | ⟨a, _ | ⟨b, rest⟩⟩
    · simp only [dashdashLoop, Outcome.ok.injEq] at hrun
      subst hrun
      exact hm0
    · rw [dashdashLoop_single] at hrun
      rcases hb : loopBody a none with ⟨k, v, c⟩ | f
      · rw [hb] at hrun
        simp only [Outcome.ok.injEq] at hrun
        subst hrun
        exact hstep a none k v c (by simp) hb
      · rw [hb] at hrun; cases hrun
    · rw [dashdashLoop_cons2] at hrun
      rcases hb : loopBody a (some b) with ⟨k, v, c⟩ | f
      · rw [hb] at hrun
        have hk := hstep a (some b) k v c (by simp) hb
        cases c
        · exact ih (b :: rest) (assign m0 k v) m (by simp at h ⊢; omega)
            (fun t ht => hwf t (by simp at ht ⊢; tauto)) hk hrun
        · exact ih rest (assign m0 k v) m (by simp at h ⊢; omega)
            (fun t ht => hwf t (by simp at ht ⊢; tauto)) hk hrun
      · rw [hb] at hrun; cases hrun

/-- A bare flag whose key has at least three bytes and does not start with
the bytes of no-dash is stored as boolean true. -/
theorem bare_flag_long_key (k : GoString) (hlen : 3 ≤ k.length) (hkeq : byteEq ∉ k)
    (hno : k.take 3 ≠ strNo) :
    dashdashArgsToMap [byteDash :: byteDash :: k] = .ok [(k, .bool true)] := by
  have h3 : ¬ k.length < 3 := by omega
  simp [dashdashArgsToMap, dashdashLoop, loopBody, eatDashes_dashdash,
    indexByte_none k byteEq hkeq, nextIsValue, slice03, h3, hno, assign]

/-! ## The claims on `dashdashArgsToMap` -/

/-- C1 (evaluation at the failing input): a bare flag whose key has fewer than
three bytes is not stored as boolean true; on the tokens `--v` and `-v` the
slice `arg[0:3]` of line 129 panics with slice bounds out of range. -/
theorem C1_bare_flag_short_key_panics :
    dashdashArgsToMap [ascii "--v"] = .fault .sliceBoundsOutOfRange ∧
    dashdashArgsToMap [ascii "-v"] = .fault .sliceBoundsOutOfRange := by
  decide

/-- C2: when the candidate of a token `t` is `k ++ "=" ++ v` with no equals
byte in `k`, `dashdashArgsToMap [t]` returns exactly the one-entry map sending
`k` to the string `v`, with `v` verbatim. -/
theorem C2_key_value (t k v : GoString) (hc : candidate t = k ++ byteEq :: v)
    (hk : byteEq ∉ k) : dashdashArgsToMap [t] = .ok [(k, .str v)] := by
  have hne : candidate t ≠ [] := by rw [hc]; simp
  simp [dashdashArgsToMap, dashdashLoop, loopBody, eatDashes_of_candidate t hne, hc,
    indexByte_append k v byteEq hk, assign]

/-- C2 at the token `--name=a=b-c`: the value keeps its further equals and dash
bytes. -/
theorem C2_key_value_witness :
    candidate (ascii "--name=a=b-c") = ascii "name" ++ byteEq :: ascii "a=b-c" ∧
    byteEq ∉ ascii "name" ∧
    dashdashArgsToMap [ascii "--name=a=b-c"] = .ok [(ascii "name", .str (ascii "a=b-c"))] :=
  ⟨by decide, by decide,
    C2_key_value (ascii "--name=a=b-c") (ascii "name") (ascii "a=b-c") (by decide) (by decide)⟩

/-- C3: for a non-empty key `k` with no equals byte and no leading dash, and a
non-empty token `v` with no leading dash, `dashdashArgsToMap ["--" ++ k, v]`
returns exactly the one-entry map sending `k` to the string `v`. -/
theorem C3_separate_value (k v : GoString) (_hk : k ≠ []) (hkeq : byteEq ∉ k)
    (_hkd : k.head? ≠ some byteDash) (hv : v ≠ []) (hvd : v.head? ≠ some byteDash) :
    dashdashArgsToMap [byteDash :: byteDash :: k, v] = .ok [(k, .str v)] := by
  rcases v with _ | ⟨c, r⟩
  · exact absurd rfl hv
  · have hc : c ≠ byteDash := by simpa using hvd
    simp [dashdashArgsToMap, dashdashLoop, loopBody, eatDashes_dashdash,
      indexByte_none k byteEq hkeq, nextIsValue, index0, hc, assign]

/-- C3 at the tokens `--count 3`: the value stays the string of the digit. -/
theorem C3_separate_value_witness :
    dashdashArgsToMap [byteDash :: byteDash :: ascii "count", ascii "3"]
      = .ok [(ascii "count", .str (ascii "3"))] :=
  C3_separate_value (ascii "count") (ascii "3") (by decide) (by decide) (by decide)
    (by decide) (by decide)

/-- C4: for a non-empty key `k` with no equals byte, `dashdashArgsToMap` on the
token `--no-` followed by `k` returns exactly the one-entry map sending `k` to
boolean false, and that map has no entry under the key with the no-dash bytes
in front. -/
theorem C4_negated_flag (k : GoString) (_hk : k ≠ []) (hkeq : byteEq ∉ k) :
    dashdashArgsToMap [byteDash :: byteDash :: (strNo ++ k)] = .ok [(k, .bool false)] ∧
    lookup [(k, .bool false)] (strNo ++ k) = none := by
  have hidx : indexByte (strNo ++ k) byteEq = none := by
    apply indexByte_none
    simp only [List.mem_append, not_or]
    exact ⟨by decide, hkeq⟩
  have hne : k ≠ strNo ++ k := by
    intro h
    have := congrArg List.length h
    simp [strNo] at this
    omega
  constructor
  · simp only [dashdashArgsToMap, dashdashLoop, loopBody, eatDashes_dashdash, hidx,
      nextIsValue, slice03]
    have h3 : ¬ (k.length + 1 + 1 + 1 < 3) := by omega
    simp [strNo, assign, h3]
  · simp [lookup, hne]

/-- C4 at the token `--no-debug`. -/
theorem C4_negated_flag_witness :
    dashdashArgsToMap [byteDash :: byteDash :: (strNo ++ ascii "debug")]
      = .ok [(ascii "debug", .bool false)] ∧
    lookup [(ascii "debug", .bool false)] (strNo ++ ascii "debug") = none :=
  C4_negated_flag (ascii "debug") (by decide) (by decide)

/-- C5: appending a token `t` that begins with a dash to `args`, when both
`args` and `[t]` parse without fault, parses without fault to the map of `args`
with the single binding of `[t]` written into it (which then reads back as the
value of `t`); and the three listed token sequences give the listed maps. -/
theorem C5_append_overwrites :
    (∀ (args : List GoString) (t : GoString) (m b : Args),
      t.head? = some byteDash → dashdashArgsToMap args = .ok m →
      dashdashArgsToMap [t] = .ok b →
      ∃ k v, b = [(k, v)] ∧ dashdashArgsToMap (args ++ [t]) = .ok (assign m k v) ∧
        lookup (assign m k v) k = some v) ∧
    dashdashArgsToMap [ascii "--x=1", ascii "--x=2"] = .ok [(ascii "x", .str (ascii "2"))] ∧
    dashdashArgsToMap [ascii "--name=foo", ascii "--verbose", ascii "--no-debug"]
      = .ok [(ascii "name", .str (ascii "foo")), (ascii "verbose", .bool true),
          (ascii "debug", .bool false)] ∧
    dashdashArgsToMap [ascii "--count", ascii "--other"]
      = .ok [(ascii "count", .bool true), (ascii "other", .bool true)] := by
  refine ⟨?_, by decide, by decide, by decide⟩
  intro args t m b ht hargs hone
  unfold dashdashArgsToMap at hargs hone ⊢
  rw [dashdashLoop_snoc t ht args.length args [] le_rfl, hargs]
  simp only
  rw [dashdashLoop_single] at hone ⊢
  rcases hb : loopBody t none with ⟨k, v, c⟩ | f
  · rw [hb] at hone
    simp only [Outcome.ok.injEq] at hone
    exact ⟨k, v, by rw [← hone]; rfl, rfl, lookup_assign m k v⟩
  · rw [hb] at hone; cases hone

/-- C5 at `args = ["--x=1"]`, `t = "--x=2"`: the later value replaces the
earlier one. -/
theorem C5_append_overwrites_witness :
    ∃ k v, [(ascii "x", Value.str (ascii "2"))] = [(k, v)] ∧
      dashdashArgsToMap ([ascii "--x=1"] ++ [ascii "--x=2"])
        = .ok (assign [(ascii "x", .str (ascii "1"))] k v) ∧
      lookup (assign [(ascii "x", .str (ascii "1"))] k v) k = some v :=
  C5_append_overwrites.1 [ascii "--x=1"] (ascii "--x=2") [(ascii "x", .str (ascii "1"))]
    [(ascii "x", .str (ascii "2"))] (by decide) (by decide) (by decide)

/-- C6 (evaluation at the failing inputs): on the empty token and on the bare
dash the index expression `arg[0]` of lines 113 and 115 panics with index out
of range; no parse error is reported. -/
theorem C6_malformed_token_panics :
    dashdashArgsToMap [ascii ""] = .fault .indexOutOfRange ∧
    dashdashArgsToMap [ascii "-"] = .fault .indexOutOfRange := by
  decide

/-- C7 (counterexample): the tokens `--=v` and `--no-` are non-empty after the
removal of their two dashes and are parsed without fault, yet each yields a map
whose only key is the empty string. -/
theorem C7_empty_key_counterexample :
    (∀ t ∈ [ascii "--=v"], candidate t ≠ []) ∧
    dashdashArgsToMap [ascii "--=v"] = .ok [([], .str (ascii "v"))] ∧
    (∀ t ∈ [ascii "--no-"], candidate t ≠ []) ∧
    dashdashArgsToMap [ascii "--no-"] = .ok [([], .bool false)] := by
  decide

/-- C7 (amended): when every token, after the removal of up to two leading
dashes, is non-empty, does not begin with the equals byte and is not exactly
the bytes of no-dash, and `dashdashArgsToMap` completes, no key of the returned
map is the empty string. -/
theorem C7_keys_nonempty (args : List GoString) (m : Args)
    (hwf : ∀ t ∈ args, candidate t ≠ [] ∧ (candidate t).head? ≠ some byteEq ∧
      candidate t ≠ strNo)
    (h : dashdashArgsToMap args = .ok m) : ∀ kv ∈ m, kv.1 ≠ [] :=
  dashdashLoop_keys_ne_nil args.length args [] m le_rfl hwf (by simp) h

/-- C7 (amended) at the tokens `--name=foo --no-debug`: the key stored for the
first token is not empty. -/
theorem C7_keys_nonempty_witness :
    dashdashArgsToMap [ascii "--name=foo", ascii "--no-debug"]
      = .ok [(ascii "name", .str (ascii "foo")), (ascii "debug", .bool false)] ∧
    (ascii "name", Value.str (ascii "foo")).1 ≠ [] :=
  ⟨by decide,
    C7_keys_nonempty [ascii "--name=foo", ascii "--no-debug"]
      [(ascii "name", .str (ascii "foo")), (ascii "debug", .bool false)]
      (by decide) (by decide) (ascii "name", .str (ascii "foo")) (List.mem_cons_self _ _)⟩


/-! ## Termination of the renderer -/

theorem rangeLoop_returns {V α : Type} (body : V → List V → Option (List V × List α))
    (Q : List V → Prop) (hQ : ∀ s t, s ⊆ t → Q s → Q t)
    (hbody : ∀ x s, Q s → ∃ r, body x s = some r ∧ s ⊆ r.1) :
    ∀ (xs s : List V), Q s → ∃ r, rangeLoop body xs s = some r ∧ s ⊆ r.1 := by
  intro xs
  induction xs with
  | nil => intro s _; exact ⟨(s, []), rfl, List.Subset.refl s⟩
  | cons x rest ih =>
    intro s hs
    obtain ⟨⟨s1, o1⟩, h1, hsub1⟩ := hbody x s hs
    obtain ⟨⟨s2, o2⟩, h2, hsub2⟩ := ih s1 (hQ s s1 hsub1 hs)
    refine ⟨(s2, o1 ++ o2), ?_, fun a ha => hsub2 (hsub1 ha)⟩
    simp [rangeLoop, h1, h2]

section Renderer

variable {V : Type} [DecidableEq V]

theorem unshownCount_mono [Fintype V] (s t : List V) (h : s ⊆ t) :
    unshownCount t ≤ unshownCount s := by
  apply Finset.card_le_card
  intro x hx
  simp only [Finset.mem_filter, Finset.mem_univ, true_and] at hx ⊢
  exact fun hs => hx (h hs)

theorem unshownCount_cons_lt [Fintype V] (v : V) (s : List V) (h : v ∉ s) :
    unshownCount (v :: s) < unshownCount s := by
  apply Finset.card_lt_card
  rw [Finset.ssubset_iff_of_subset]
  · exact ⟨v, by simp [h], by simp⟩
  · intro x hx
    simp only [Finset.mem_filter, Finset.mem_univ, true_and, List.mem_cons, not_or] at hx ⊢
    exact hx.2

theorem unshownCount_le_card [Fintype V] (s : List V) : unshownCount s ≤ Fintype.card V := by
  unfold unshownCount
  exact Finset.card_le_univ _

theorem printVertex_returns [Fintype V] (g : Graph V) :
    ∀ (fuel : Nat) (v : V) (s : List V) (indent : String), unshownCount s < fuel →
      ∃ r, printVertex g fuel v s indent = some r ∧ s ⊆ r.1 := by
  intro fuel
  induction fuel with
  | zero => intro v s indent h; omega
  | succ fuel ih =>
    intro v s indent h
    by_cases hv : v ∈ s
    · exact ⟨(s, [indent ++ g.type v ++ ": <cycle...>\n"]), by simp [printVertex, hv],
        List.Subset.refl s⟩
    · have hlt : unshownCount (v :: s) < fuel := by
        have := unshownCount_cons_lt v s hv
        omega
      obtain ⟨⟨s1, o1⟩, h1, hsub1⟩ :=
        rangeLoop_returns (fun out t => printVertex g fuel out t (indent ++ "    -> "))
          (fun t => unshownCount t < fuel)
          (fun a b hab ha => lt_of_le_of_lt (unshownCount_mono a b hab) ha)
          (fun x t ht => ih x t (indent ++ "    -> ") ht) (g.outs v) (v :: s) hlt
      refine ⟨(s1, (indent ++ g.type v ++ ":\n") :: o1), ?_, fun a ha =>
        hsub1 (List.mem_cons_of_mem v ha)⟩
      simp [printVertex, hv, h1]

end Renderer

/-! ## The claims on `printVertex` -/

/-- C8: on a finite vertex type, with any out-edge lists (cycles and self-loops
included), any root sequence and any initial shown set, `printVertex` and the
root loop return as soon as the recursion depth allowed exceeds the number of
not-yet-shown vertices, the measure that strictly decreases at each expansion. -/
theorem C8_rendering_terminates {V : Type} [Fintype V] [DecidableEq V] (g : Graph V)
    (roots shown : List V) (fuel : Nat) (h : unshownCount shown < fuel) :
    (∀ (v : V) (indent : String), ∃ r, printVertex g fuel v shown indent = some r) ∧
    (∃ r, rangeLoop (fun root s => printVertex g fuel root s "") roots shown = some r) ∧
    (∀ (v : V), v ∉ shown → unshownCount (v :: shown) < unshownCount shown) := by
  refine ⟨?_, ?_, fun v hv => unshownCount_cons_lt v shown hv⟩
  · intro v indent
    obtain ⟨r, hr, _⟩ := printVertex_returns g fuel v shown indent h
    exact ⟨r, hr⟩
  · obtain ⟨r, hr, _⟩ :=
      rangeLoop_returns (fun root s => printVertex g fuel root s "")
        (fun t => unshownCount t < fuel)
        (fun a b hab ha => lt_of_le_of_lt (unshownCount_mono a b hab) ha)
        (fun x t ht => printVertex_returns g fuel x t "" ht) roots shown h
    exact ⟨r, hr⟩

/-- C8 on the cycle A → B → C → A with root A and an empty shown set. -/
theorem C8_rendering_terminates_witness :
    (∀ (v : Fin 3) (indent : String), ∃ r, printVertex triangle 4 v [] indent = some r) ∧
    (∃ r, rangeLoop (fun root s => printVertex triangle 4 root s "") [0] [] = some r) ∧
    (∀ (v : Fin 3), v ∉ ([] : List (Fin 3)) →
      unshownCount (v :: []) < unshownCount ([] : List (Fin 3))) :=
  C8_rendering_terminates triangle [0] [] 4 (by decide)

/-- C9: when `v` is already shown, `printVertex` writes exactly the one line
made of the indent, the type label and the cycle marker, records no arrival at
any other vertex (no out-edge is visited) and returns the shown set unchanged. -/
theorem C9_shown_vertex_is_leaf {V : Type} [DecidableEq V] (g : Graph V) (v : V)
    (shown : List V) (indent : String) (fuel : Nat) (h : v ∈ shown) :
    printVertex g (fuel + 1) v shown indent
      = some (shown, [indent ++ g.type v ++ ": <cycle...>\n"]) ∧
    printVertexVisits g (fuel + 1) v shown indent = some (shown, [⟨indent, v, true⟩]) := by
  simp [printVertex, printVertexVisits, h]

/-- C9 on the diamond: vertex D already shown, reached below B. -/
theorem C9_shown_vertex_is_leaf_witness :
    printVertex diamond 1 3 [3, 1, 0] "    ->     -> "
      = some ([3, 1, 0], ["    ->     -> " ++ diamond.type 3 ++ ": <cycle...>\n"]) ∧
    printVertexVisits diamond 1 3 [3, 1, 0] "    ->     -> "
      = some ([3, 1, 0], [⟨"    ->     -> ", 3, true⟩]) :=
  C9_shown_vertex_is_leaf diamond 3 [3, 1, 0] "    ->     -> " 0 (by decide)


/-! ## Correctness of the traversal -/

theorem rangeLoop_map {V α β : Type} (f : α → β)
    (body1 : V → List V → Option (List V × List α))
    (body2 : V → List V → Option (List V × List β))
    (h : ∀ x s, body2 x s = (body1 x s).map (fun r => (r.1, r.2.map f))) :
    ∀ (xs s : List V),
      rangeLoop body2 xs s = (rangeLoop body1 xs s).map (fun r => (r.1, r.2.map f)) := by
  intro xs
  induction xs with
  | nil => intro s; simp [rangeLoop]
  | cons x rest ih =>
    intro s
    simp only [rangeLoop, h x s]
    rcases body1 x s with _ | ⟨s1, o1⟩
    · simp
    · simp only [Option.map_some', ih s1]
      rcases rangeLoop body1 rest s1 with _ | ⟨s2, o2⟩ <;> simp

theorem printVertex_eq_visits {V : Type} [DecidableEq V] (g : Graph V) :
    ∀ (fuel : Nat) (v : V) (s : List V) (indent : String),
      printVertex g fuel v s indent =
        (printVertexVisits g fuel v s indent).map
          (fun r => (r.1, r.2.map (Visit.text g))) := by
  intro fuel
  induction fuel with
  | zero => intro v s indent; simp [printVertex, printVertexVisits]
  | succ fuel ih =>
    intro v s indent
    by_cases hv : v ∈ s
    · simp [printVertex, printVertexVisits, hv, Visit.text]
    · simp only [printVertex, printVertexVisits, hv, if_false]
      rw [rangeLoop_map (Visit.text g)
        (fun out t => printVertexVisits g fuel out t (indent ++ "    -> "))
        (fun out t => printVertex g fuel out t (indent ++ "    -> "))
        (fun x t => ih x t (indent ++ "    -> "))]
      rcases rangeLoop (fun out t => printVertexVisits g fuel out t (indent ++ "    -> "))
        (g.outs v) (v :: s) with _ | ⟨s1, o1⟩ <;> simp [Visit.text]

theorem render_eq_visits {V : Type} [DecidableEq V] (g : Graph V) (fuel : Nat)
    (roots : List V) :
    render g fuel roots =
      (renderVisits g fuel roots).map (fun r => (r.1, r.2.map (Visit.text g))) :=
  rangeLoop_map (Visit.text g) (fun root t => printVertexVisits g fuel root t "")
    (fun root t => printVertex g fuel root t "")
    (fun x t => printVertex_eq_visits g fuel x t "") roots []

theorem fullVertices_append {V : Type} (a b : List (Visit V)) :
    fullVertices (a ++ b) = fullVertices a ++ fullVertices b := by
  simp [fullVertices]

theorem fullVertices_subset {V : Type} (out : List (Visit V)) (x : V)
    (h : x ∈ fullVertices out) : ∃ e ∈ out, e.vertex = x := by
  simp only [fullVertices, List.mem_map, List.mem_filter] at h
  obtain ⟨e, ⟨he, _⟩, hx⟩ := h
  exact ⟨e, he, hx⟩

theorem Marked_congr {V : Type} (out : List (Visit V)) :
    ∀ (s t : List V), (∀ x, x ∈ s ↔ x ∈ t) → Marked s out → Marked t out := by
  induction out with
  | nil => intro s t _ _; trivial
  | cons e rest ih =>
    intro s t hst h
    refine ⟨by rw [← hst]; exact h.1, ih (e.vertex :: s) (e.vertex :: t) ?_ h.2⟩
    intro x
    simp [hst x]

theorem Marked_append {V : Type} (a b : List (Visit V)) :
    ∀ (s : List V), Marked s (a ++ b) ↔
      Marked s a ∧ Marked ((a.map Visit.vertex).reverse ++ s) b := by
  induction a with
  | nil => intro s; simp [Marked]
  | cons e rest ih =>
    intro s
    show ((e.cycle = true ↔ e.vertex ∈ s) ∧ Marked (e.vertex :: s) (rest ++ b)) ↔
      ((e.cycle = true ↔ e.vertex ∈ s) ∧ Marked (e.vertex :: s) rest) ∧
        Marked (((e :: rest).map Visit.vertex).reverse ++ s) b
    rw [ih (e.vertex :: s)]
    simp [and_assoc]

theorem Marked_split {V : Type} (s : List V) (out l1 l2 : List (Visit V)) (e : Visit V)
    (h : Marked s out) (hsplit : out = l1 ++ e :: l2) :
    (e.cycle = true ↔ e.vertex ∈ s ∨ ∃ d ∈ l1, d.vertex = e.vertex) := by
  subst hsplit
  have h2 := ((Marked_append l1 (e :: l2) s).mp h).2.1
  rw [h2]
  simp only [List.mem_append, List.mem_reverse, List.mem_map]
  exact or_comm


theorem RunInv.sub {V : Type} {g : Graph V} {starts s t : List V} {out : List (Visit V)}
    (h : RunInv g starts s t out) : ∀ a, a ∈ s → a ∈ t := by
  intro a ha
  rw [h.shown_eq]
  exact List.mem_append_right _ ha

theorem RunInv.full_shown {V : Type} {g : Graph V} {starts s t : List V}
    {out : List (Visit V)} (h : RunInv g starts s t out) :
    ∀ a, a ∈ fullVertices out → a ∈ t := by
  intro a ha
  rw [h.shown_eq]
  exact List.mem_append_left _ (List.mem_reverse.mpr ha)

theorem RunInv.mem_iff {V : Type} {g : Graph V} {starts s t : List V}
    {out : List (Visit V)} (h : RunInv g starts s t out) :
    ∀ a, a ∈ t ↔ a ∈ (out.map Visit.vertex).reverse ++ s := by
  intro a
  constructor
  · intro ha
    rw [h.shown_eq] at ha
    rcases List.mem_append.mp ha with h1 | h1
    · obtain ⟨e, he, hx⟩ := fullVertices_subset out a (List.mem_reverse.mp h1)
      exact List.mem_append_left _ (List.mem_reverse.mpr (List.mem_map.mpr ⟨e, he, hx⟩))
    · exact List.mem_append_right _ h1
  · intro ha
    rcases List.mem_append.mp ha with h1 | h1
    · obtain ⟨e, he, hx⟩ := List.mem_map.mp (List.mem_reverse.mp h1)
      rw [← hx]
      exact h.visited_shown e he
    · exact h.sub a h1

theorem rangeLoop_inv {V : Type} (g : Graph V)
    (body : V → List V → Option (List V × List (Visit V)))
    (hbody : ∀ x s t out, body x s = some (t, out) → RunInv g [x] s t out) :
    ∀ (xs s t : List V) (out : List (Visit V)),
      rangeLoop body xs s = some (t, out) → RunInv g xs s t out := by
  intro xs
  induction xs with
  | nil =>
    intro s t out h
    simp only [rangeLoop, Option.some.injEq, Prod.mk.injEq] at h
    obtain ⟨rfl, rfl⟩ := h
    exact ⟨by simp [fullVertices], by simp [fullVertices], by simp [fullVertices],
      by simp [fullVertices], by simp, by simp [fullVertices], trivial, by simp⟩
  | cons x rest ih =>
    intro s t out h
    simp only [rangeLoop] at h
    rcases hb : body x s with _ | ⟨s1, o1⟩
    · simp [hb] at h
    · rcases hr : rangeLoop body rest s1 with _ | ⟨s2, o2⟩
      · simp [hb, hr] at h
      · simp only [hb, hr, Option.some.injEq, Prod.mk.injEq] at h
        obtain ⟨rfl, rfl⟩ := h
        have I1 := hbody x s s1 o1 hb
        have I2 := ih s1 s2 o2 hr
        refine ⟨?_, ?_, ?_, ?_, ?_, ?_, ?_, ?_⟩
        · rw [I2.shown_eq, I1.shown_eq, fullVertices_append]
          simp
        · intro a ha
          rw [fullVertices_append] at ha
          rcases List.mem_append.mp ha with h1 | h1
          · exact I1.fresh a h1
          · exact fun hs => I2.fresh a h1 (I1.sub a hs)
        · rw [fullVertices_append]
          refine List.nodup_append.mpr ⟨I1.nodup, I2.nodup, ?_⟩
          intro a h1 h2
          exact I2.fresh a h2 (I1.full_shown a h1)
        · intro a ha
          rw [fullVertices_append] at ha
          rcases List.mem_append.mp ha with h1 | h1
          · obtain ⟨r, hr1, hr2⟩ := I1.reach a h1
            simp only [List.mem_singleton] at hr1
            subst hr1
            exact ⟨r, List.mem_cons_self _ _, hr2⟩
          · obtain ⟨r, hr1, hr2⟩ := I2.reach a h1
            exact ⟨r, List.mem_cons_of_mem _ hr1, hr2⟩
        · intro a ha
          rcases List.mem_cons.mp ha with h1 | h1
          · subst h1
            exact I2.sub a (I1.starts_shown a (List.mem_singleton_self a))
          · exact I2.starts_shown a h1
        · intro a ha y hy
          rw [fullVertices_append] at ha
          rcases List.mem_append.mp ha with h1 | h1
          · exact I2.sub y (I1.closed a h1 y hy)
          · exact I2.closed a h1 y hy
        · exact (Marked_append o1 o2 s).mpr
            ⟨I1.marked, Marked_congr o2 s1 _ I1.mem_iff I2.marked⟩
        · intro e he
          rcases List.mem_append.mp he with h1 | h1
          · exact I2.sub _ (I1.visited_shown e h1)
          · exact I2.visited_shown e h1

theorem printVertexVisits_inv {V : Type} [DecidableEq V] (g : Graph V) :
    ∀ (fuel : Nat) (v : V) (s : List V) (indent : String) (t : List V)
      (out : List (Visit V)),
      printVertexVisits g fuel v s indent = some (t, out) → RunInv g [v] s t out := by
  intro fuel
  induction fuel with
  | zero => intro v s indent t out h; simp [printVertexVisits] at h
  | succ fuel ih =>
    intro v s indent t out h
    by_cases hv : v ∈ s
    · simp only [printVertexVisits, hv, if_true, Option.some.injEq, Prod.mk.injEq] at h
      obtain ⟨rfl, rfl⟩ := h
      exact ⟨by simp [fullVertices], by simp [fullVertices], by simp [fullVertices],
        by simp [fullVertices], by simp [hv], by simp [fullVertices],
        by simp [Marked, hv], by simp [hv]⟩
    · simp only [printVertexVisits, hv, if_false] at h
      rcases hr : rangeLoop (fun out t => printVertexVisits g fuel out t (indent ++ "    -> "))
        (g.outs v) (v :: s) with _ | ⟨s1, o1⟩
      · simp [hr] at h
      · simp only [hr, Option.some.injEq, Prod.mk.injEq] at h
        obtain ⟨rfl, rfl⟩ := h
        have I := rangeLoop_inv g
          (fun out t => printVertexVisits g fuel out t (indent ++ "    -> "))
          (fun x a b o hx => ih x a (indent ++ "    -> ") b o hx) (g.outs v) (v :: s) s1 o1 hr
        have hfv : fullVertices (⟨indent, v, false⟩ :: o1) = v :: fullVertices o1 := by
          simp [fullVertices]
        have hvs1 : v ∈ s1 := I.sub v (List.mem_cons_self _ _)
        refine ⟨?_, ?_, ?_, ?_, ?_, ?_, ?_, ?_⟩
        · rw [hfv, I.shown_eq]; simp
        · intro a ha
          rw [hfv] at ha
          rcases List.mem_cons.mp ha with h1 | h1
          · subst h1; exact hv
          · exact fun hs => I.fresh a h1 (List.mem_cons_of_mem _ hs)
        · rw [hfv]
          exact List.nodup_cons.mpr
            ⟨fun h1 => I.fresh v h1 (List.mem_cons_self _ _), I.nodup⟩
        · intro a ha
          rw [hfv] at ha
          rcases List.mem_cons.mp ha with h1 | h1
          · subst h1
            exact ⟨a, List.mem_singleton_self a, Relation.ReflTransGen.refl⟩
          · obtain ⟨r, hr1, hr2⟩ := I.reach a h1
            exact ⟨v, List.mem_singleton_self v, Relation.ReflTransGen.head hr1 hr2⟩
        · intro a ha
          simp only [List.mem_singleton] at ha
          subst ha
          exact hvs1
        · intro a ha y hy
          rw [hfv] at ha
          rcases List.mem_cons.mp ha with h1 | h1
          · subst h1
            exact I.starts_shown y hy
          · exact I.closed a h1 y hy
        · exact ⟨by simp [hv], I.marked⟩
        · intro e he
          rcases List.mem_cons.mp he with h1 | h1
          · subst h1; exact hvs1
          · exact I.visited_shown e h1

theorem renderVisits_inv {V : Type} [DecidableEq V] (g : Graph V) (fuel : Nat)
    (roots t : List V) (out : List (Visit V)) (h : renderVisits g fuel roots = some (t, out)) :
    RunInv g roots [] t out :=
  rangeLoop_inv g (fun root s => printVertexVisits g fuel root s "")
    (fun x a b o hx => printVertexVisits_inv g fuel x a "" b o hx) roots [] t out h

theorem renderVisits_full_iff {V : Type} [DecidableEq V] (g : Graph V) (fuel : Nat)
    (roots t : List V) (out : List (Visit V)) (h : renderVisits g fuel roots = some (t, out))
    (v : V) : v ∈ fullVertices out ↔ g.Reachable roots v := by
  have I := renderVisits_inv g fuel roots t out h
  have ht : ∀ a, a ∈ t → a ∈ fullVertices out := by
    intro a ha
    rw [I.shown_eq] at ha
    simpa using ha
  constructor
  · exact fun hv => I.reach v hv
  · rintro ⟨r, hr, hpath⟩
    induction hpath with
    | refl => exact ht r (I.starts_shown r hr)
    | tail _ hbc ih => exact ht _ (I.closed _ ih _ hbc)

theorem renderVisits_returns {V : Type} [Fintype V] [DecidableEq V] (g : Graph V)
    (fuel : Nat) (roots : List V) (h : Fintype.card V < fuel) :
    ∃ t out, renderVisits g fuel roots = some (t, out) ∧
      render g fuel roots = some (t, out.map (Visit.text g)) := by
  have hlt : unshownCount ([] : List V) < fuel :=
    lt_of_le_of_lt (unshownCount_le_card []) h
  obtain ⟨r, hr, _⟩ :=
    rangeLoop_returns (fun root s => printVertex g fuel root s "")
      (fun t => unshownCount t < fuel)
      (fun a b hab ha => lt_of_le_of_lt (unshownCount_mono a b hab) ha)
      (fun x t ht => printVertex_returns g fuel x t "" ht) roots [] hlt
  have hren : render g fuel roots = some r := hr
  have hlink := render_eq_visits g fuel roots
  rw [hren] at hlink
  rcases hv : renderVisits g fuel roots with _ | ⟨t, out⟩
  · rw [hv] at hlink; simp at hlink
  · refine ⟨t, out, rfl, ?_⟩
    rw [hren, hlink, hv]
    rfl


/-- C10: one render call on a finite graph returns, and among its arrivals
each vertex reachable from a root has exactly one expanding arrival (one full
line) and every other vertex none, so the full lines number the reachable
vertices; an arrival is a cycle marker exactly when its vertex arrived earlier
in the call.  The diamond with root A renders the five listed lines. -/
theorem C10_reachable_rendered_once :
    (∀ (V : Type) [Fintype V] [DecidableEq V] (g : Graph V) (roots : List V) (fuel : Nat),
      Fintype.card V < fuel →
      ∃ shown visits, renderVisits g fuel roots = some (shown, visits) ∧
        render g fuel roots = some (shown, visits.map (Visit.text g)) ∧
        (∀ v, g.Reachable roots v → (fullVertices visits).count v = 1) ∧
        (∀ v, ¬ g.Reachable roots v → (fullVertices visits).count v = 0) ∧
        (fullVertices visits).length = Set.ncard {v | g.Reachable roots v} ∧
        (∀ (l1 : List (Visit V)) (e : Visit V) (l2 : List (Visit V)),
          visits = l1 ++ e :: l2 → (e.cycle = true ↔ ∃ d ∈ l1, d.vertex = e.vertex))) ∧
    (render diamond 5 [0]).map Prod.snd
      = some ["A:\n", "    -> B:\n", "    ->     -> D:\n", "    -> C:\n",
          "    ->     -> D: <cycle...>\n"] := by
  refine ⟨?_, by decide⟩
  intro V _ _ g roots fuel hfuel
  obtain ⟨t, out, hv, hr⟩ := renderVisits_returns g fuel roots hfuel
  have I := renderVisits_inv g fuel roots t out hv
  have hiff := renderVisits_full_iff g fuel roots t out hv
  refine ⟨t, out, hv, hr, ?_, ?_, ?_, ?_⟩
  · intro v hreach
    exact List.count_eq_one_of_mem I.nodup ((hiff v).mpr hreach)
  · intro v hreach
    exact List.count_eq_zero_of_not_mem (fun hmem => hreach ((hiff v).mp hmem))
  · have hset : {v | g.Reachable roots v} = ((fullVertices out).toFinset : Set V) := by
      ext v
      simp [hiff v]
    rw [hset, Set.ncard_coe_Finset, List.toFinset_card_of_nodup I.nodup]
  · intro l1 e l2 hsplit
    have := Marked_split [] out l1 l2 e I.marked hsplit
    simpa using this

/-- C10 on the diamond A → [B, C], B → [D], C → [D] with root A and recursion
depth 5. -/
theorem C10_reachable_rendered_once_witness :
    ∃ shown visits, renderVisits diamond 5 [0] = some (shown, visits) ∧
      render diamond 5 [0] = some (shown, visits.map (Visit.text diamond)) ∧
      (∀ v, diamond.Reachable [0] v → (fullVertices visits).count v = 1) ∧
      (∀ v, ¬ diamond.Reachable [0] v → (fullVertices visits).count v = 0) ∧
      (fullVertices visits).length = Set.ncard {v | diamond.Reachable [0] v} ∧
      (∀ (l1 : List (Visit (Fin 4))) (e : Visit (Fin 4)) (l2 : List (Visit (Fin 4))),
        visits = l1 ++ e :: l2 → (e.cycle = true ↔ ∃ d ∈ l1, d.vertex = e.vertex)) :=
  C10_reachable_rendered_once.1 (Fin 4) diamond [0] 5 (by simp)


/-! ## The later claims on the renderer -/

/-- C13: with an empty root sequence the root loop makes no call to
`printVertex` (it returns even when no recursion depth is allowed), writes
nothing, and the text on standard output is the empty string. -/
theorem C13_empty_roots_empty_output {V : Type} [DecidableEq V] (g : Graph V) (fuel : Nat) :
    render g fuel [] = some ([], []) ∧ renderVisits g fuel [] = some ([], []) ∧
    render g 0 [] = some ([], []) ∧ stdout ([] : List String) = "" := by
  refine ⟨rfl, rfl, rfl, rfl⟩

theorem printVertex_indent {V : Type} [DecidableEq V] (g : Graph V) :
    ∀ (fuel : Nat) (v : V) (s : List V) (indent : String),
      printVertex g fuel v s indent =
        (printVertex g fuel v s "").map (fun r => (r.1, r.2.map (fun l => indent ++ l))) := by
  intro fuel
  induction fuel with
  | zero => intro v s indent; simp [printVertex]
  | succ fuel ih =>
    intro v s indent
    by_cases hv : v ∈ s
    · simp [printVertex, hv, String.append_assoc]
    · simp only [printVertex, hv, if_false]
      have h1 := rangeLoop_map (fun l => (indent ++ "    -> ") ++ l)
        (fun out t => printVertex g fuel out t "")
        (fun out t => printVertex g fuel out t (indent ++ "    -> "))
        (fun x t => ih x t (indent ++ "    -> ")) (g.outs v) (v :: s)
      have h2 := rangeLoop_map (fun l => ("" ++ "    -> ") ++ l)
        (fun out t => printVertex g fuel out t "")
        (fun out t => printVertex g fuel out t ("" ++ "    -> "))
        (fun x t => ih x t ("" ++ "    -> ")) (g.outs v) (v :: s)
      rw [h1, h2]
      rcases rangeLoop (fun out t => printVertex g fuel out t "") (g.outs v) (v :: s)
        with _ | ⟨s1, o1⟩
      · simp
      · simp [String.append_assoc]

/-- Whenever `printVertex` returns, its first line is the line of the vertex
itself, and for a vertex not yet shown the rest is the output of the loop over
its out-edges. -/
theorem printVertex_first_line {V : Type} [DecidableEq V] (g : Graph V) (fuel : Nat) (v : V)
    (shown : List V) (indent : String) :
    printVertex g fuel v shown indent =
      (printVertex g fuel v shown "").map
        (fun r => (r.1, r.2.map (fun l => indent ++ l))) ∧
    (∀ (t : List V) (out : List String), printVertex g (fuel + 1) v shown indent = some (t, out) →
      ∃ rest, out = (indent ++ g.type v ++ (if v ∈ shown then ": <cycle...>\n" else ":\n"))
          :: rest ∧
        (v ∉ shown → rangeLoop (fun c s => printVertex g fuel c s (indent ++ "    -> "))
          (g.outs v) (v :: shown) = some (t, rest))) := by
  refine ⟨printVertex_indent g fuel v shown indent, ?_⟩
  intro t out h
  by_cases hv : v ∈ shown
  · simp only [printVertex, hv, if_true, Option.some.injEq, Prod.mk.injEq] at h
    exact ⟨[], by simp [hv, ← h.2], fun hn => absurd hv hn⟩
  · simp only [printVertex, hv, if_false] at h
    rcases hr : rangeLoop (fun c s => printVertex g fuel c s (indent ++ "    -> "))
      (g.outs v) (v :: shown) with _ | ⟨s1, o1⟩
    · simp [hr] at h
    · simp only [hr, Option.some.injEq, Prod.mk.injEq] at h
      exact ⟨o1, by simp [hv, ← h.2], fun _ => by rw [← h.1]⟩

theorem printVertex_indent_append {V : Type} [DecidableEq V] (g : Graph V) (fuel : Nat)
    (v : V) (s : List V) (a b : String) :
    printVertex g fuel v s (a ++ b) =
      (printVertex g fuel v s b).map (fun r => (r.1, r.2.map (fun l => a ++ l))) := by
  rw [printVertex_indent g fuel v s (a ++ b), printVertex_indent g fuel v s b]
  rcases printVertex g fuel v s "" with _ | ⟨t, o⟩
  · rfl
  · simp [String.append_assoc]

/-- C15: with recursion depth above the number of not-yet-shown vertices,
`printVertex` returns at the empty indent and at any indent with the same
shown set, and the lines at the indent are the lines at the empty indent with
the indent in front of each.  The first line is the line of the vertex itself;
for a vertex already shown it is the only line, and for a vertex not yet shown
the rest is what the loop over its out-edges, in out-edge order, writes with
the indent extended by one unit. -/
theorem C15_indent_uniform {V : Type} [Fintype V] [DecidableEq V] (g : Graph V) (fuel : Nat)
    (v : V) (shown : List V) (indent : String) (hfuel : unshownCount shown < fuel) :
    printVertex g fuel v shown indent =
      (printVertex g fuel v shown "").map
        (fun r => (r.1, r.2.map (fun l => indent ++ l))) ∧
    ∃ (t : List V) (rest : List String),
      printVertex g fuel v shown ""
        = some (t, ("" ++ g.type v ++ (if v ∈ shown then ": <cycle...>\n" else ":\n")) :: rest) ∧
      printVertex g fuel v shown indent
        = some (t, (indent ++ g.type v ++ (if v ∈ shown then ": <cycle...>\n" else ":\n"))
            :: rest.map (fun l => indent ++ l)) ∧
      (v ∈ shown → t = shown ∧ rest = []) ∧
      (v ∉ shown → ∃ n, fuel = n + 1 ∧
        rangeLoop (fun c s => printVertex g n c s ("" ++ "    -> ")) (g.outs v) (v :: shown)
          = some (t, rest) ∧
        rangeLoop (fun c s => printVertex g n c s (indent ++ "    -> ")) (g.outs v)
          (v :: shown) = some (t, rest.map (fun l => indent ++ l))) := by
  obtain ⟨n, rfl⟩ : ∃ n, fuel = n + 1 := ⟨fuel - 1, by omega⟩
  refine ⟨printVertex_indent g (n + 1) v shown indent, ?_⟩
  by_cases hv : v ∈ shown
  · exact ⟨shown, [], by simp [printVertex, hv], by simp [printVertex, hv],
      fun _ => ⟨rfl, rfl⟩, fun h => absurd hv h⟩
  · obtain ⟨⟨t, out⟩, hr, _⟩ := printVertex_returns g (n + 1) v shown "" hfuel
    simp only [printVertex, hv, if_false] at hr
    rcases h0 : rangeLoop (fun c s => printVertex g n c s "    -> ") (g.outs v)
      (v :: shown) with _ | ⟨s1, o1⟩
    · simp [h0] at hr
    · have hi : rangeLoop (fun c s => printVertex g n c s (indent ++ "    -> ")) (g.outs v)
          (v :: shown) = some (s1, o1.map (fun l => indent ++ l)) := by
        have := rangeLoop_map (fun l => indent ++ l)
          (fun c s => printVertex g n c s "    -> ")
          (fun c s => printVertex g n c s (indent ++ "    -> "))
          (fun x s => printVertex_indent_append g n x s indent "    -> ")
          (g.outs v) (v :: shown)
        rw [h0] at this
        exact this
      refine ⟨s1, o1, ?_, ?_, fun h => absurd h hv, fun _ => ⟨n, rfl, h0, hi⟩⟩
      · simp [printVertex, hv, h0]
      · simp [printVertex, hv, hi]

/-- C15 on the diamond at root A with nothing shown and an indent of two
blanks. -/
theorem C15_indent_uniform_witness :
    printVertex diamond 5 0 [] "  " =
      (printVertex diamond 5 0 [] "").map
        (fun r => (r.1, r.2.map (fun l => "  " ++ l))) ∧
    ∃ (t : List (Fin 4)) (rest : List String),
      printVertex diamond 5 0 [] ""
        = some (t, ("" ++ diamond.type 0 ++
            (if (0 : Fin 4) ∈ ([] : List (Fin 4)) then ": <cycle...>\n" else ":\n")) :: rest) ∧
      printVertex diamond 5 0 [] "  "
        = some (t, ("  " ++ diamond.type 0 ++
            (if (0 : Fin 4) ∈ ([] : List (Fin 4)) then ": <cycle...>\n" else ":\n"))
            :: rest.map (fun l => "  " ++ l)) ∧
      ((0 : Fin 4) ∈ ([] : List (Fin 4)) → t = [] ∧ rest = []) ∧
      ((0 : Fin 4) ∉ ([] : List (Fin 4)) → ∃ n, 5 = n + 1 ∧
        rangeLoop (fun c s => printVertex diamond n c s ("" ++ "    -> ")) (diamond.outs 0)
          (0 :: []) = some (t, rest) ∧
        rangeLoop (fun c s => printVertex diamond n c s ("  " ++ "    -> ")) (diamond.outs 0)
          (0 :: []) = some (t, rest.map (fun l => "  " ++ l))) :=
  C15_indent_uniform diamond 5 0 [] "  " (by decide)


theorem rangeLoop_rename {V W α : Type} (f : V → W)
    (body1 : V → List V → Option (List V × List α))
    (body2 : W → List W → Option (List W × List α))
    (h : ∀ x s, body2 (f x) (s.map f) = (body1 x s).map (fun r => (r.1.map f, r.2))) :
    ∀ (xs s : List V),
      rangeLoop body2 (xs.map f) (s.map f) =
        (rangeLoop body1 xs s).map (fun r => (r.1.map f, r.2)) := by
  intro xs
  induction xs with
  | nil => intro s; simp [rangeLoop]
  | cons x rest ih =>
    intro s
    simp only [List.map_cons, rangeLoop, h x s]
    rcases body1 x s with _ | ⟨s1, o1⟩
    · simp
    · simp only [Option.map_some', ih s1]
      rcases rangeLoop body1 rest s1 with _ | ⟨s2, o2⟩ <;> simp

theorem printVertex_rename {V W : Type} [DecidableEq V] [DecidableEq W] (g1 : Graph V)
    (g2 : Graph W) (f : V → W) (hf : Function.Injective f)
    (htype : ∀ v, g2.type (f v) = g1.type v)
    (houts : ∀ v, g2.outs (f v) = (g1.outs v).map f) :
    ∀ (fuel : Nat) (v : V) (s : List V) (indent : String),
      printVertex g2 fuel (f v) (s.map f) indent =
        (printVertex g1 fuel v s indent).map (fun r => (r.1.map f, r.2)) := by
  intro fuel
  induction fuel with
  | zero => intro v s indent; simp [printVertex]
  | succ fuel ih =>
    intro v s indent
    have hmem : f v ∈ s.map f ↔ v ∈ s := List.mem_map_of_injective hf
    by_cases hv : v ∈ s
    · simp [printVertex, hv, hmem, htype]
    · have hv2 : f v ∉ s.map f := fun h => hv (hmem.mp h)
      simp only [printVertex, hv, hv2, if_false, houts, htype]
      have h1 := rangeLoop_rename f
        (fun out t => printVertex g1 fuel out t (indent ++ "    -> "))
        (fun out t => printVertex g2 fuel out t (indent ++ "    -> "))
        (fun x t => ih x t (indent ++ "    -> ")) (g1.outs v) (v :: s)
      rw [List.map_cons] at h1
      rw [h1]
      rcases rangeLoop (fun out t => printVertex g1 fuel out t (indent ++ "    -> "))
        (g1.outs v) (v :: s) with _ | ⟨s1, o1⟩ <;> simp

theorem render_returns {V : Type} [Fintype V] [DecidableEq V] (g : Graph V)
    (fuel : Nat) (roots s : List V) (h : unshownCount s < fuel) :
    ∃ r, rangeLoop (fun root t => printVertex g fuel root t "") roots s = some r ∧
      s ⊆ r.1 :=
  rangeLoop_returns (fun root t => printVertex g fuel root t "")
    (fun t => unshownCount t < fuel)
    (fun a b hab ha => lt_of_le_of_lt (unshownCount_mono a b hab) ha)
    (fun x t ht => printVertex_returns g fuel x t "" ht) roots s h

/-- C12: when an injective renaming of the vertices carries each type label and
each ordered out-edge list of one finite graph to those of another, rendering
the renamed roots writes the same lines, hence the same bytes, as rendering the
roots; with enough recursion depth both calls return. -/
theorem C12_output_independent_of_identity {V W : Type} [Fintype V] [DecidableEq V]
    [DecidableEq W] (g1 : Graph V) (g2 : Graph W) (f : V → W) (roots : List V) (fuel : Nat)
    (hf : Function.Injective f) (htype : ∀ v, g2.type (f v) = g1.type v)
    (houts : ∀ v, g2.outs (f v) = (g1.outs v).map f) :
    (render g2 fuel (roots.map f)).map (fun r => r.2) =
      (render g1 fuel roots).map (fun r => r.2) ∧
    (render g2 fuel (roots.map f)).map (fun r => stdout r.2) =
      (render g1 fuel roots).map (fun r => stdout r.2) ∧
    (Fintype.card V < fuel → ∃ t lines, render g1 fuel roots = some (t, lines) ∧
      render g2 fuel (roots.map f) = some (t.map f, lines)) := by
  have hmain : render g2 fuel (roots.map f) =
      (render g1 fuel roots).map (fun r => (r.1.map f, r.2)) := by
    have := rangeLoop_rename f (fun root t => printVertex g1 fuel root t "")
      (fun root t => printVertex g2 fuel root t "")
      (fun x t => printVertex_rename g1 g2 f hf htype houts fuel x t "") roots []
    simpa [render] using this
  refine ⟨?_, ?_, ?_⟩
  · rw [hmain]; rcases render g1 fuel roots with _ | ⟨t, o⟩ <;> simp
  · rw [hmain]; rcases render g1 fuel roots with _ | ⟨t, o⟩ <;> simp
  · intro hfuel
    obtain ⟨⟨t, lines⟩, hr, _⟩ := render_returns g1 fuel roots []
      (lt_of_le_of_lt (unshownCount_le_card []) hfuel)
    have hr1 : render g1 fuel roots = some (t, lines) := hr
    exact ⟨t, lines, hr1, by rw [hmain, hr1]; rfl⟩

/-- C12 on the cycle A → B → C → A and its copy with every vertex renamed to
its successor. -/
theorem C12_output_independent_of_identity_witness :
    (render triangleRot 4 ([0].map (fun v : Fin 3 => v + 1))).map (fun r => r.2) =
      (render triangle 4 [0]).map (fun r => r.2) ∧
    (render triangleRot 4 ([0].map (fun v : Fin 3 => v + 1))).map (fun r => stdout r.2) =
      (render triangle 4 [0]).map (fun r => stdout r.2) ∧
    (Fintype.card (Fin 3) < 4 → ∃ t lines, render triangle 4 [0] = some (t, lines) ∧
      render triangleRot 4 ([0].map (fun v : Fin 3 => v + 1))
        = some (t.map (fun v : Fin 3 => v + 1), lines)) :=
  C12_output_independent_of_identity triangle triangleRot (fun v => v + 1) [0] 4
    (by decide) (by decide) (by decide)

theorem rangeLoop_cons {V α : Type} (body : V → List V → Option (List V × List α))
    (x : V) (rest s : List V) :
    rangeLoop body (x :: rest) s =
      match body x s with
      | none => none
      | some (s1, o1) =>
        match rangeLoop body rest s1 with
        | none => none
        | some (s2, o2) => some (s2, o1 ++ o2) := by
  rw [rangeLoop]

theorem rangeLoop_append {V α : Type} (body : V → List V → Option (List V × List α)) :
    ∀ (xs ys s : List V),
      rangeLoop body (xs ++ ys) s =
        match rangeLoop body xs s with
        | none => none
        | some (s1, o1) =>
          match rangeLoop body ys s1 with
          | none => none
          | some (s2, o2) => some (s2, o1 ++ o2) := by
  intro xs
  induction xs with
  | nil =>
    intro ys s
    simp only [List.nil_append, rangeLoop]
    rcases rangeLoop body ys s with _ | ⟨s2, o2⟩ <;> simp
  | cons x rest ih =>
    intro ys s
    rw [List.cons_append, rangeLoop_cons, rangeLoop_cons]
    rcases body x s with _ | ⟨s1, o1⟩
    · simp
    · simp only
      rw [ih ys s1]
      rcases rangeLoop body rest s1 with _ | ⟨s2, o2⟩
      · simp
      · simp only
        rcases rangeLoop body ys s2 with _ | ⟨s3, o3⟩ <;> simp

/-- C14: a root that is reachable from the earlier roots of the sequence (in
particular one that repeats an earlier root) contributes exactly one
cycle-marker line at empty indentation between the output of the earlier roots
and the output of the later roots, and leaves the shown set as it was; the two
listed root sequences give the listed texts. -/
theorem C14_shared_shown_set :
    (∀ (V : Type) [Fintype V] [DecidableEq V] (g : Graph V) (pre : List V) (r : V)
      (post : List V) (fuel : Nat), Fintype.card V < fuel → g.Reachable pre r →
      ∃ s1 o1 s2 o2, render g fuel pre = some (s1, o1) ∧
        rangeLoop (fun root s => printVertex g fuel root s "") post s1 = some (s2, o2) ∧
        render g fuel (pre ++ r :: post)
          = some (s2, o1 ++ ("" ++ g.type r ++ ": <cycle...>\n") :: o2)) ∧
    (render edgePair 3 [0, 1]).map (fun r => stdout r.2)
      = some "A:\n    -> B:\nB: <cycle...>\n" ∧
    (render loneVertex 2 [0, 0]).map (fun r => stdout r.2) = some "A:\nA: <cycle...>\n" := by
  refine ⟨?_, by decide, by decide⟩
  intro V _ _ g pre r post fuel hfuel hreach
  obtain ⟨s1, v1, hv1, hr1⟩ := renderVisits_returns g fuel pre hfuel
  have hmem : r ∈ s1 :=
    (renderVisits_inv g fuel pre s1 v1 hv1).full_shown r
      ((renderVisits_full_iff g fuel pre s1 v1 hv1 r).mpr hreach)
  have hlt : unshownCount s1 < fuel := lt_of_le_of_lt (unshownCount_le_card s1) hfuel
  obtain ⟨⟨s2, o2⟩, hpost, _⟩ := render_returns g fuel post s1 hlt
  refine ⟨s1, v1.map (Visit.text g), s2, o2, hr1, hpost, ?_⟩
  obtain ⟨n, rfl⟩ : ∃ n, fuel = n + 1 := ⟨fuel - 1, by omega⟩
  have hr1b : rangeLoop (fun root s => printVertex g (n + 1) root s "") pre []
      = some (s1, v1.map (Visit.text g)) := hr1
  have hb : printVertex g (n + 1) r s1 "" = some (s1, ["" ++ g.type r ++ ": <cycle...>\n"]) := by
    simp [printVertex, hmem]
  unfold render
  rw [rangeLoop_append, hr1b]
  simp only [rangeLoop, hb, hpost]
  simp


theorem indentOf_succ (n : Nat) : indentOf (n + 1) = indentOf n ++ "    -> " := by
  apply String.ext
  simp [indentOf, List.replicate_succ']

theorem chain_print {V : Type} [DecidableEq V] (g : Graph V) (first : V) :
    ∀ (suf : List V) (x : V) (s : List V) (k fuel : Nat),
      IsCycleChain g first (x :: suf) → (x :: suf).Nodup → (∀ y ∈ x :: suf, y ∉ s) →
      first ∈ x :: s → suf.length + 2 ≤ fuel →
      printVertex g fuel x s (indentOf k) =
        some ((x :: suf).reverse ++ s,
          ((x :: suf).enumFrom k).map (fun p => indentOf p.1 ++ g.type p.2 ++ ":\n") ++
            [indentOf (k + suf.length + 1) ++ g.type first ++ ": <cycle...>\n"]) := by
  intro suf
  induction suf with
  | nil =>
    intro x s k fuel hchain _ hfresh hfirst hfuel
    obtain ⟨n, rfl⟩ : ∃ n, fuel = n + 2 := ⟨fuel - 2, by simp at hfuel; omega⟩
    have hx : x ∉ s := hfresh x (List.mem_singleton_self x)
    have houts : g.outs x = [first] := hchain
    simp [printVertex, hx, houts, rangeLoop, hfirst, indentOf_succ]
  | cons y rest ih =>
    intro x s k fuel hchain hnodup hfresh hfirst hfuel
    obtain ⟨n, rfl⟩ : ∃ n, fuel = n + 1 := ⟨fuel - 1, by simp at hfuel; omega⟩
    have hx : x ∉ s := hfresh x (List.mem_cons_self _ _)
    obtain ⟨houts, hchain2⟩ : g.outs x = [y] ∧ IsCycleChain g first (y :: rest) := hchain
    have hnodup2 : (y :: rest).Nodup := (List.nodup_cons.mp hnodup).2
    have hxnot : x ∉ y :: rest := (List.nodup_cons.mp hnodup).1
    have hfresh2 : ∀ z ∈ y :: rest, z ∉ x :: s := by
      intro z hz hzs
      rcases List.mem_cons.mp hzs with h1 | h1
      · exact hxnot (h1 ▸ hz)
      · exact hfresh z (List.mem_cons_of_mem _ hz) h1
    have hrec := ih y (x :: s) (k + 1) n hchain2 hnodup2 hfresh2
      (List.mem_cons_of_mem _ hfirst) (by simp at hfuel ⊢; omega)
    rw [indentOf_succ] at hrec
    have harith : k + 1 + rest.length + 1 = k + (y :: rest).length + 1 := by
      simp; omega
    rw [harith] at hrec
    simp only [printVertex, hx, if_false, houts, rangeLoop, hrec]
    simp [List.enumFrom_cons]

/-- C11: for a simple cycle of `n` vertices (`n ≥ 1`), each with exactly the
one out-edge to the next vertex and the last back to the first, rendering from
the first vertex returns `n + 1` lines: line `i < n` is the indentation unit
repeated `i` times, the type of vertex `i` and a colon, and the last line is
the unit repeated `n` times, the type of the first vertex and the cycle
marker.  On A → B → C → A the text is the listed one. -/
theorem C11_cycle_rendered_as_chain :
    (∀ (V : Type) [DecidableEq V] (g : Graph V) (v0 : V) (tail : List V) (fuel : Nat),
      (v0 :: tail).Nodup → IsCycleChain g v0 (v0 :: tail) → tail.length + 2 ≤ fuel →
      ∃ shown lines, render g fuel [v0] = some (shown, lines) ∧
        lines.length = (v0 :: tail).length + 1 ∧
        lines = ((v0 :: tail).enum.map (fun p => indentOf p.1 ++ g.type p.2 ++ ":\n")) ++
          [indentOf (v0 :: tail).length ++ g.type v0 ++ ": <cycle...>\n"]) ∧
    (render triangle 4 [0]).map (fun r => stdout r.2)
      = some "A:\n    -> B:\n    ->     -> C:\n    ->     ->     -> A: <cycle...>\n" := by
  refine ⟨?_, by decide⟩
  intro V _ g v0 tail fuel hnodup hchain hfuel
  have h := chain_print g v0 tail v0 [] 0 fuel hchain hnodup (by simp)
    (List.mem_cons_self _ _) hfuel
  have h0 : indentOf 0 = "" := rfl
  rw [h0] at h
  refine ⟨(v0 :: tail).reverse ++ [], _, ?_, ?_, rfl⟩
  · simp only [render, rangeLoop, h]
    simp [List.enum]
  · simp [List.enum]

/-- C11 on the cycle A → B → C → A with root A and recursion depth 4. -/
theorem C11_cycle_rendered_as_chain_witness :
    ∃ shown lines, render triangle 4 [0] = some (shown, lines) ∧
      lines.length = ((0 : Fin 3) :: [1, 2]).length + 1 ∧
      lines = ((((0 : Fin 3) :: [1, 2]).enum).map
          (fun p => indentOf p.1 ++ triangle.type p.2 ++ ":\n")) ++
        [indentOf ((0 : Fin 3) :: [1, 2]).length ++ triangle.type 0 ++ ": <cycle...>\n"] :=
  C11_cycle_rendered_as_chain.1 (Fin 3) triangle 0 [1, 2] 4 (by decide)
    ⟨rfl, rfl, rfl⟩ (by decide)


/-- C14 on the graph with the single edge A → B and roots A, B: the root B was
reached below A. -/
theorem C14_shared_shown_set_witness :
    ∃ s1 o1 s2 o2, render edgePair 3 [0] = some (s1, o1) ∧
      rangeLoop (fun root s => printVertex edgePair 3 root s "") [] s1 = some (s2, o2) ∧
      render edgePair 3 ([0] ++ 1 :: [])
        = some (s2, o1 ++ ("" ++ edgePair.type 1 ++ ": <cycle...>\n") :: o2) :=
  C14_shared_shown_set.1 (Fin 2) edgePair [0] 1 [] 3 (by simp)
    ⟨0, List.mem_singleton_self 0,
      Relation.ReflTransGen.single (show (1 : Fin 2) ∈ edgePair.outs 0 from by decide)⟩

/-! ## The later claims on `dashdashArgsToMap` -/

theorem index0_respell (t : GoString) : index0 (respell t) = index0 t := by
  rcases t with _ | ⟨c, k⟩
  · rfl
  · by_cases h : c = byteDash ∧ k ≠ [] ∧ k.head? ≠ some byteDash
    · simp [respell, h, index0, h.1]
    · simp [respell, h, index0]

theorem eatDashes_respell (t : GoString) : eatDashes (respell t) = eatDashes t := by
  rcases t with _ | ⟨c, k⟩
  · rfl
  · by_cases h : c = byteDash ∧ k ≠ [] ∧ k.head? ≠ some byteDash
    · obtain ⟨hc, hk, hd⟩ := h
      subst hc
      rcases k with _ | ⟨c1, r⟩
      · exact absurd rfl hk
      · have hc1 : c1 ≠ byteDash := by simpa using hd
        simp [respell, eatDashes, index0, hc1]
    · simp [respell, h]

theorem respell_of_value (t : GoString) (h : nextIsValue (some t) = .ok true) :
    respell t = t := by
  rcases t with _ | ⟨c, k⟩
  · rfl
  · have hc : c ≠ byteDash := by simpa [nextIsValue, index0] using h
    simp [respell, hc]

theorem loopBody_respell (tok : GoString) (next : Option GoString) :
    loopBody (respell tok) (next.map respell) = loopBody tok next := by
  have hn : nextIsValue (next.map respell) = nextIsValue next := by
    cases next <;> simp [nextIsValue, index0_respell]
  have hv : nextIsValue next = .ok true → (next.map respell).getD [] = next.getD [] := by
    intro h
    cases next with
    | none => rfl
    | some nx => simp [respell_of_value nx h]
  unfold loopBody
  rw [eatDashes_respell, hn]
  rcases eatDashes tok with arg | f
  · simp only
    rcases indexByte arg byteEq with _ | eq
    · simp only
      rcases hnv : nextIsValue next with b | f
      · cases b
        · rfl
        · simp only
          rw [hv hnv]
      · rfl
    · rfl
  · rfl

theorem dashdashLoop_respell :
    ∀ (n : Nat) (args : List GoString) (m : Args), args.length ≤ n →
      dashdashLoop (args.map respell) m = dashdashLoop args m := by
  intro n
  induction n with
  | zero =>
    intro args m h
    have : args = [] := List.length_eq_zero.mp (Nat.le_zero.mp h)
    subst this
    rfl
  | succ n ih =>
    intro args m h
    rcases args with _ | ⟨a, _ | ⟨b, rest⟩⟩
    · rfl
    · simp only [List.map_cons, List.map_nil]
      rw [dashdashLoop_single, dashdashLoop_single]
      have := loopBody_respell a none
      simp only [Option.map_none'] at this
      rw [this]
    · simp only [List.map_cons]
      rw [dashdashLoop_cons2, dashdashLoop_cons2]
      have := loopBody_respell a (some b)
      simp only [Option.map_some'] at this
      rw [this]
      rcases loopBody a (some b) with ⟨k, v, c⟩ | f
      · cases c
        · have := ih (b :: rest) (assign m k v) (by simp at h ⊢; omega)
          simpa using this
        · have := ih rest (assign m k v) (by simp at h ⊢; omega)
          simpa using this
      · rfl

/-- C16: respelling every token made of one dash and a non-empty key that does
not begin with a dash with two dashes does not change the result of
`dashdashArgsToMap`: the two calls either both fault or return equal maps. -/
theorem C16_single_and_double_dash (args : List GoString) :
    dashdashArgsToMap (args.map respell) = dashdashArgsToMap args ∧
    ((∃ f1 f2, dashdashArgsToMap (args.map respell) = .fault f1 ∧
        dashdashArgsToMap args = .fault f2) ∨
      (∃ m, dashdashArgsToMap (args.map respell) = .ok m ∧ dashdashArgsToMap args = .ok m)) ∧
    respell (byteDash :: ascii "name=foo") = byteDash :: byteDash :: ascii "name=foo" := by
  have h : dashdashArgsToMap (args.map respell) = dashdashArgsToMap args :=
    dashdashLoop_respell args.length args [] le_rfl
  refine ⟨h, ?_, by decide⟩
  rw [h]
  rcases dashdashArgsToMap args with m | f
  · exact Or.inr ⟨m, rfl, rfl⟩
  · exact Or.inl ⟨f, f, rfl, rfl⟩

theorem loopBody_ok (tok : GoString) (next : Option GoString)
    (h : 3 ≤ (candidate tok).length) (hn : ∀ nx, next = some nx → nx ≠ []) :
    ∃ r, loopBody tok next = .ok r := by
  have hne : candidate tok ≠ [] := by
    intro h0
    rw [h0] at h
    simp at h
  have h3 : ¬ (candidate tok).length < 3 := by omega
  unfold loopBody
  rw [eatDashes_of_candidate tok hne]
  simp only
  rcases indexByte (candidate tok) byteEq with _ | eq
  · simp only
    have hnv : ∃ b, nextIsValue next = .ok b := by
      cases next with
      | none => exact ⟨false, rfl⟩
      | some nx =>
        rcases nx with _ | ⟨c, r⟩
        · exact absurd rfl (hn [] rfl)
        · exact ⟨decide (c ≠ byteDash), rfl⟩
    obtain ⟨b, hb⟩ := hnv
    rw [hb]
    cases b
    · simp only [slice03, h3, if_false]
      by_cases hp : List.take 3 (candidate tok) = strNo
      · simp [hp]
      · simp [hp]
    · exact ⟨_, rfl⟩
  · exact ⟨_, rfl⟩

theorem dashdashLoop_ok :
    ∀ (n : Nat) (args : List GoString) (m0 : Args), args.length ≤ n →
      (∀ t ∈ args, 3 ≤ (candidate t).length) → ∃ m, dashdashLoop args m0 = .ok m := by
  intro n
  induction n with
  | zero =>
    intro args m0 h _
    have : args = [] := List.length_eq_zero.mp (Nat.le_zero.mp h)
    subst this
    exact ⟨m0, rfl⟩
  | succ n ih =>
    intro args m0 h hwf
    rcases args with _ | ⟨a, _ | ⟨b, rest⟩⟩
    · exact ⟨m0, rfl⟩
    · obtain ⟨⟨k, v, c⟩, hr⟩ := loopBody_ok a none (hwf a (by simp)) (by simp)
      rw [dashdashLoop_single, hr]
      exact ⟨_, rfl⟩
    · have hb : b ≠ [] := by
        intro h0
        have := hwf b (by simp)
        rw [h0] at this
        simp [candidate, dropDash] at this
      obtain ⟨⟨k, v, c⟩, hr⟩ := loopBody_ok a (some b) (hwf a (by simp))
        (by intro nx hnx; cases hnx; exact hb)
      rw [dashdashLoop_cons2, hr]
      cases c
      · exact ih (b :: rest) (assign m0 k v) (by simp at h ⊢; omega)
          (fun t ht => hwf t (by simp at ht ⊢; tauto))
      · exact ih rest (assign m0 k v) (by simp at h ⊢; omega)
          (fun t ht => hwf t (by simp at ht ⊢; tauto))

/-- C17: when every token, after the removal of its first dash if present and
then of the next dash if present, still has at least three bytes,
`dashdashArgsToMap` raises no index or slice fault and returns a map. -/
theorem C17_three_bytes_no_fault (args : List GoString)
    (h : ∀ t ∈ args, 3 ≤ (candidate t).length) : ∃ m, dashdashArgsToMap args = .ok m :=
  dashdashLoop_ok args.length args [] le_rfl h

/-- C17 on the tokens `--count 123 --verbose`. -/
theorem C17_three_bytes_no_fault_witness :
    ∃ m, dashdashArgsToMap [ascii "--count", ascii "123", ascii "--verbose"] = .ok m :=
  C17_three_bytes_no_fault [ascii "--count", ascii "123", ascii "--verbose"] (by decide)


/-! ## Size of the output -/

theorem rangeLoop_count {V : Type} (g : Graph V)
    (body : V → List V → Option (List V × List (Visit V)))
    (hbody : ∀ x s t out, body x s = some (t, out) →
      out.length = 1 + ((fullVertices out).map (fun v => (g.outs v).length)).sum) :
    ∀ (xs s t : List V) (out : List (Visit V)), rangeLoop body xs s = some (t, out) →
      out.length = xs.length + ((fullVertices out).map (fun v => (g.outs v).length)).sum := by
  intro xs
  induction xs with
  | nil =>
    intro s t out h
    simp only [rangeLoop, Option.some.injEq, Prod.mk.injEq] at h
    obtain ⟨_, rfl⟩ := h
    simp [fullVertices]
  | cons x rest ih =>
    intro s t out h
    rw [rangeLoop_cons] at h
    rcases hb : body x s with _ | ⟨s1, o1⟩
    · simp [hb] at h
    · rcases hr : rangeLoop body rest s1 with _ | ⟨s2, o2⟩
      · simp [hb, hr] at h
      · simp only [hb, hr, Option.some.injEq, Prod.mk.injEq] at h
        obtain ⟨_, rfl⟩ := h
        have h1 := hbody x s s1 o1 hb
        have h2 := ih s1 s2 o2 hr
        simp only [List.length_append, fullVertices_append, List.map_append, List.sum_append,
          List.length_cons]
        omega

theorem printVertexVisits_count {V : Type} [DecidableEq V] (g : Graph V) :
    ∀ (fuel : Nat) (v : V) (s : List V) (indent : String) (t : List V)
      (out : List (Visit V)), printVertexVisits g fuel v s indent = some (t, out) →
      out.length = 1 + ((fullVertices out).map (fun v => (g.outs v).length)).sum := by
  intro fuel
  induction fuel with
  | zero => intro v s indent t out h; simp [printVertexVisits] at h
  | succ fuel ih =>
    intro v s indent t out h
    by_cases hv : v ∈ s
    · simp only [printVertexVisits, hv, if_true, Option.some.injEq, Prod.mk.injEq] at h
      obtain ⟨_, rfl⟩ := h
      simp [fullVertices]
    · simp only [printVertexVisits, hv, if_false] at h
      rcases hr : rangeLoop (fun out t => printVertexVisits g fuel out t (indent ++ "    -> "))
        (g.outs v) (v :: s) with _ | ⟨s1, o1⟩
      · simp [hr] at h
      · simp only [hr, Option.some.injEq, Prod.mk.injEq] at h
        obtain ⟨_, rfl⟩ := h
        have hc := rangeLoop_count g
          (fun out t => printVertexVisits g fuel out t (indent ++ "    -> "))
          (fun x a b o hx => ih x a (indent ++ "    -> ") b o hx) (g.outs v) (v :: s) s1 o1 hr
        have hfv : fullVertices (⟨indent, v, false⟩ :: o1) = v :: fullVertices o1 := by
          simp [fullVertices]
        rw [hfv]
        simp only [List.length_cons, List.map_cons, List.sum_cons]
        omega

theorem full_add_cycle {V : Type} (out : List (Visit V)) :
    (fullVertices out).length + (out.filter (fun e => e.cycle)).length = out.length := by
  induction out with
  | nil => rfl
  | cons e rest ih =>
    cases hc : e.cycle
    · simp [fullVertices, hc] at ih ⊢
      omega
    · simp [fullVertices, hc] at ih ⊢
      omega

/-- C18: one render call on a finite graph writes exactly as many lines as
there are roots plus the out-edges, counted with multiplicity, of the distinct
vertices reachable from the roots; the lines written on the already-shown
branch number that total minus the number of distinct reachable vertices. -/
theorem C18_output_size {V : Type} [Fintype V] [DecidableEq V] (g : Graph V)
    (roots : List V) (fuel : Nat) (hfuel : Fintype.card V < fuel) :
    ∃ (shown : List V) (visits : List (Visit V)) (R : Finset V),
      renderVisits g fuel roots = some (shown, visits) ∧
      render g fuel roots = some (shown, visits.map (Visit.text g)) ∧
      (∀ v, v ∈ R ↔ g.Reachable roots v) ∧
      (visits.map (Visit.text g)).length = roots.length + ∑ v in R, (g.outs v).length ∧
      (visits.filter (fun e => e.cycle)).length
        = roots.length + ∑ v in R, (g.outs v).length - R.card := by
  obtain ⟨t, out, hv, hr⟩ := renderVisits_returns g fuel roots hfuel
  have I := renderVisits_inv g fuel roots t out hv
  have hiff := renderVisits_full_iff g fuel roots t out hv
  have hcount := rangeLoop_count g (fun root s => printVertexVisits g fuel root s "")
    (fun x a b o hx => printVertexVisits_count g fuel x a "" b o hx) roots [] t out hv
  have hsum : ∑ v in (fullVertices out).toFinset, (g.outs v).length
      = ((fullVertices out).map (fun v => (g.outs v).length)).sum :=
    List.sum_toFinset _ I.nodup
  have hcard : (fullVertices out).toFinset.card = (fullVertices out).length :=
    List.toFinset_card_of_nodup I.nodup
  have hsplit := full_add_cycle out
  refine ⟨t, out, (fullVertices out).toFinset, hv, hr, ?_, ?_, ?_⟩
  · intro v
    rw [List.mem_toFinset]
    exact hiff v
  · rw [List.length_map, hsum]
    exact hcount
  · rw [hsum, hcard]
    omega

/-- C18 on the diamond with root A: five lines for one root and four
out-edges. -/
theorem C18_output_size_witness :
    ∃ (shown : List (Fin 4)) (visits : List (Visit (Fin 4))) (R : Finset (Fin 4)),
      renderVisits diamond 5 [0] = some (shown, visits) ∧
      render diamond 5 [0] = some (shown, visits.map (Visit.text diamond)) ∧
      (∀ v, v ∈ R ↔ diamond.Reachable [0] v) ∧
      (visits.map (Visit.text diamond)).length
        = [(0 : Fin 4)].length + ∑ v in R, (diamond.outs v).length ∧
      (visits.filter (fun e => e.cycle)).length
        = [(0 : Fin 4)].length + ∑ v in R, (diamond.outs v).length - R.card :=
  C18_output_size diamond [0] 5 (by simp)


/-! ## Rendering of a forest -/

theorem walk_of_reach {V : Type} (g : Graph V) (r x : V)
    (h : Relation.ReflTransGen g.Edge r x) : ∃ p, walk g p r = some x := by
  induction h using Relation.ReflTransGen.head_induction_on with
  | refl => exact ⟨[], rfl⟩
  | head hedge _ ih =>
    obtain ⟨p, hp⟩ := ih
    obtain ⟨j, hj⟩ := List.getElem?_of_mem hedge
    exact ⟨j :: p, by simp [walk, hj, hp]⟩

theorem walkFrom_child {V : Type} (g : Graph V) (v : V) (q : List Nat) (y : V)
    (h : walkFrom g (g.outs v) q = some y) : ∃ j p, q = j :: p ∧ walk g (j :: p) v = some y := by
  rcases q with _ | ⟨j, p⟩
  · simp [walkFrom] at h
  · exact ⟨j, p, rfl, h⟩

theorem UniquePaths.head {V : Type} {g : Graph V} {x : V} {rest : List V}
    (h : UniquePaths g (x :: rest)) : UniquePaths g [x] := by
  have key : ∀ (p : List Nat) (y : V), walkFrom g [x] p = some y →
      ∃ p1, p = 0 :: p1 ∧ walkFrom g (x :: rest) (0 :: p1) = some y := by
    intro p y hp
    rcases p with _ | ⟨i, p1⟩
    · simp [walkFrom] at hp
    · rcases i with _ | i
      · exact ⟨p1, rfl, by simpa [walkFrom] using hp⟩
      · simp [walkFrom] at hp
  intro p q y hp hq
  obtain ⟨p1, rfl, hp1⟩ := key p y hp
  obtain ⟨q1, rfl, hq1⟩ := key q y hq
  exact h _ _ y hp1 hq1

theorem walkFrom_tail {V : Type} (g : Graph V) (x : V) (rest : List V) (p : List Nat) (y : V)
    (hp : walkFrom g rest p = some y) :
    ∃ i p1, p = i :: p1 ∧ walkFrom g (x :: rest) ((i + 1) :: p1) = some y := by
  rcases p with _ | ⟨i, p1⟩
  · simp [walkFrom] at hp
  · exact ⟨i, p1, rfl, by simpa [walkFrom] using hp⟩

theorem UniquePaths.tail {V : Type} {g : Graph V} {x : V} {rest : List V}
    (h : UniquePaths g (x :: rest)) : UniquePaths g rest := by
  intro p q y hp hq
  obtain ⟨i, p1, rfl, hp1⟩ := walkFrom_tail g x rest p y hp
  obtain ⟨j, q1, rfl, hq1⟩ := walkFrom_tail g x rest q y hq
  have := h _ _ y hp1 hq1
  simp only [List.cons.injEq, Nat.add_right_cancel_iff] at this
  rw [this.1, this.2]

theorem UniquePaths.disjoint {V : Type} {g : Graph V} {x : V} {rest : List V}
    (h : UniquePaths g (x :: rest)) (p q : List Nat) (y : V) (hp : walk g p x = some y)
    (hq : walkFrom g rest q = some y) : False := by
  obtain ⟨i, q1, rfl, hq1⟩ := walkFrom_tail g x rest q y hq
  have hp1 : walkFrom g (x :: rest) (0 :: p) = some y := by simpa [walkFrom] using hp
  have := h _ _ y hp1 hq1
  simp at this

theorem UniquePaths.children {V : Type} {g : Graph V} {v : V} (h : UniquePaths g [v]) :
    UniquePaths g (g.outs v) := by
  intro p q y hp hq
  obtain ⟨j, p1, rfl, hp1⟩ := walkFrom_child g v p y hp
  obtain ⟨i, q1, rfl, hq1⟩ := walkFrom_child g v q y hq
  have hp2 : walkFrom g [v] (0 :: j :: p1) = some y := by simpa [walkFrom] using hp1
  have hq2 : walkFrom g [v] (0 :: i :: q1) = some y := by simpa [walkFrom] using hq1
  have := h _ _ y hp2 hq2
  simpa using this

theorem UniquePaths.not_back {V : Type} {g : Graph V} {v : V} (h : UniquePaths g [v])
    (q : List Nat) (hq : walkFrom g (g.outs v) q = some v) : False := by
  obtain ⟨j, p1, rfl, hp1⟩ := walkFrom_child g v q v hq
  have h1 : walkFrom g [v] (0 :: j :: p1) = some v := by simpa [walkFrom] using hp1
  have h2 : walkFrom g [v] [0] = some v := by simp [walkFrom, walk]
  have := h _ _ v h1 h2
  simp at this

theorem rangeLoop_noCycle {V : Type} (g : Graph V)
    (body : V → List V → Option (List V × List (Visit V)))
    (hinv : ∀ x s t out, body x s = some (t, out) → RunInv g [x] s t out)
    (hbody : ∀ x s t out, body x s = some (t, out) → UniquePaths g [x] →
      (∀ p y, walk g p x = some y → y ∉ s) → ∀ e ∈ out, e.cycle = false) :
    ∀ (xs s t : List V) (out : List (Visit V)), rangeLoop body xs s = some (t, out) →
      UniquePaths g xs → (∀ p y, walkFrom g xs p = some y → y ∉ s) →
      ∀ e ∈ out, e.cycle = false := by
  intro xs
  induction xs with
  | nil =>
    intro s t out h _ _
    simp only [rangeLoop, Option.some.injEq, Prod.mk.injEq] at h
    obtain ⟨_, rfl⟩ := h
    simp
  | cons x rest ih =>
    intro s t out h hu hfresh
    rw [rangeLoop_cons] at h
    rcases hb : body x s with _ | ⟨s1, o1⟩
    · simp [hb] at h
    · rcases hr : rangeLoop body rest s1 with _ | ⟨s2, o2⟩
      · simp [hb, hr] at h
      · simp only [hb, hr, Option.some.injEq, Prod.mk.injEq] at h
        obtain ⟨_, rfl⟩ := h
        have I1 := hinv x s s1 o1 hb
        have hx : ∀ p y, walk g p x = some y → y ∉ s := by
          intro p y hp
          exact hfresh (0 :: p) y (by simpa [walkFrom] using hp)
        have h1 := hbody x s s1 o1 hb hu.head hx
        have hfresh2 : ∀ p y, walkFrom g rest p = some y → y ∉ s1 := by
          intro p y hp hy
          rw [I1.shown_eq] at hy
          rcases List.mem_append.mp hy with hy1 | hy1
          · obtain ⟨r, hr1, hr2⟩ := I1.reach y (List.mem_reverse.mp hy1)
            simp only [List.mem_singleton] at hr1
            subst hr1
            obtain ⟨p0, hp0⟩ := walk_of_reach g r y hr2
            exact hu.disjoint p0 p y hp0 hp
          · obtain ⟨i, p1, rfl, hp1⟩ := walkFrom_tail g x rest p y hp
            exact hfresh _ y hp1 hy1
        have h2 := ih s1 s2 o2 hr hu.tail hfresh2
        intro e he
        rcases List.mem_append.mp he with he1 | he1
        · exact h1 e he1
        · exact h2 e he1

theorem printVertexVisits_noCycle {V : Type} [DecidableEq V] (g : Graph V) :
    ∀ (fuel : Nat) (v : V) (s : List V) (indent : String) (t : List V)
      (out : List (Visit V)), printVertexVisits g fuel v s indent = some (t, out) →
      UniquePaths g [v] → (∀ p y, walk g p v = some y → y ∉ s) →
      ∀ e ∈ out, e.cycle = false := by
  intro fuel
  induction fuel with
  | zero => intro v s indent t out h; simp [printVertexVisits] at h
  | succ fuel ih =>
    intro v s indent t out h hu hfresh
    have hv : v ∉ s := hfresh [] v rfl
    simp only [printVertexVisits, hv, if_false] at h
    rcases hr : rangeLoop (fun out t => printVertexVisits g fuel out t (indent ++ "    -> "))
      (g.outs v) (v :: s) with _ | ⟨s1, o1⟩
    · simp [hr] at h
    · simp only [hr, Option.some.injEq, Prod.mk.injEq] at h
      obtain ⟨_, rfl⟩ := h
      have hfresh2 : ∀ p y, walkFrom g (g.outs v) p = some y → y ∉ v :: s := by
        intro p y hp hy
        rcases List.mem_cons.mp hy with hy1 | hy1
        · subst hy1
          exact hu.not_back p hp
        · obtain ⟨j, p1, rfl, hp1⟩ := walkFrom_child g v p y hp
          exact hfresh _ y hp1 hy1
      have hloop := rangeLoop_noCycle g
        (fun out t => printVertexVisits g fuel out t (indent ++ "    -> "))
        (fun x a b o hx => printVertexVisits_inv g fuel x a (indent ++ "    -> ") b o hx)
        (fun x a b o hx => ih x a (indent ++ "    -> ") b o hx)
        (g.outs v) (v :: s) s1 o1 hr hu.children hfresh2
      intro e he
      rcases List.mem_cons.mp he with he1 | he1
      · rw [he1]
      · exact hloop e he1


theorem rangeLoop_preorder {V : Type} (g : Graph V)
    (body : V → List V → Option (List V × List (Visit V)))
    (pbody : V → Option (List String))
    (hbody : ∀ x s t out, body x s = some (t, out) → (∀ e ∈ out, e.cycle = false) →
      pbody x = some (out.map (Visit.text g))) :
    ∀ (xs s t : List V) (out : List (Visit V)), rangeLoop body xs s = some (t, out) →
      (∀ e ∈ out, e.cycle = false) → preorderLoop pbody xs = some (out.map (Visit.text g)) := by
  intro xs
  induction xs with
  | nil =>
    intro s t out h _
    simp only [rangeLoop, Option.some.injEq, Prod.mk.injEq] at h
    obtain ⟨_, rfl⟩ := h
    rfl
  | cons x rest ih =>
    intro s t out h hnc
    rw [rangeLoop_cons] at h
    rcases hb : body x s with _ | ⟨s1, o1⟩
    · simp [hb] at h
    · rcases hr : rangeLoop body rest s1 with _ | ⟨s2, o2⟩
      · simp [hb, hr] at h
      · simp only [hb, hr, Option.some.injEq, Prod.mk.injEq] at h
        obtain ⟨_, rfl⟩ := h
        have h1 := hbody x s s1 o1 hb (fun e he => hnc e (List.mem_append_left _ he))
        have h2 := ih s1 s2 o2 hr (fun e he => hnc e (List.mem_append_right _ he))
        simp [preorderLoop, h1, h2]

theorem printVertexVisits_preorder {V : Type} [DecidableEq V] (g : Graph V) :
    ∀ (fuel : Nat) (v : V) (s : List V) (indent : String) (t : List V)
      (out : List (Visit V)), printVertexVisits g fuel v s indent = some (t, out) →
      (∀ e ∈ out, e.cycle = false) → preorder g fuel v indent = some (out.map (Visit.text g)) := by
  intro fuel
  induction fuel with
  | zero => intro v s indent t out h; simp [printVertexVisits] at h
  | succ fuel ih =>
    intro v s indent t out h hnc
    by_cases hv : v ∈ s
    · simp only [printVertexVisits, hv, if_true, Option.some.injEq, Prod.mk.injEq] at h
      obtain ⟨_, rfl⟩ := h
      have := hnc ⟨indent, v, true⟩ (List.mem_singleton_self _)
      simp at this
    · simp only [printVertexVisits, hv, if_false] at h
      rcases hr : rangeLoop (fun out t => printVertexVisits g fuel out t (indent ++ "    -> "))
        (g.outs v) (v :: s) with _ | ⟨s1, o1⟩
      · simp [hr] at h
      · simp only [hr, Option.some.injEq, Prod.mk.injEq] at h
        obtain ⟨_, rfl⟩ := h
        have hloop := rangeLoop_preorder g
          (fun out t => printVertexVisits g fuel out t (indent ++ "    -> "))
          (fun out => preorder g fuel out (indent ++ "    -> "))
          (fun x a b o hx hn => ih x a (indent ++ "    -> ") b o hx hn)
          (g.outs v) (v :: s) s1 o1 hr (fun e he => hnc e (List.mem_cons_of_mem _ he))
        simp [preorder, hloop, Visit.text]

theorem text_of_full {V : Type} (g : Graph V) (out : List (Visit V))
    (h : ∀ e ∈ out, e.cycle = false) :
    out.map (Visit.text g) = out.map (fun e => e.indent ++ g.type e.vertex ++ ":\n") := by
  apply List.map_congr_left
  intro e he
  simp [Visit.text, h e he]

theorem fullVertices_of_full {V : Type} (out : List (Visit V))
    (h : ∀ e ∈ out, e.cycle = false) : fullVertices out = out.map Visit.vertex := by
  unfold fullVertices
  rw [List.filter_eq_self.mpr]
  intro e he
  simp [h e he]

theorem edgePair_paths : UniquePaths edgePair [0] := by
  have key : ∀ (p : List Nat) (x : Fin 2), walkFrom edgePair [0] p = some x →
      (p = [0] ∧ x = 0) ∨ (p = [0, 0] ∧ x = 1) := by
    intro p x h
    rcases p with _ | ⟨i, p1⟩
    · simp [walkFrom] at h
    · rcases i with _ | i
      · rcases p1 with _ | ⟨j, p2⟩
        · left
          simp [walkFrom, walk] at h
          exact ⟨rfl, h.symm⟩
        · rcases j with _ | j
          · rcases p2 with _ | ⟨k, p3⟩
            · right
              simp [walkFrom, walk, edgePair] at h
              exact ⟨rfl, h.symm⟩
            · simp [walkFrom, walk, edgePair] at h
          · simp [walkFrom, walk, edgePair] at h
      · simp [walkFrom] at h
  intro p q x hp hq
  rcases key p x hp with ⟨rfl, hx⟩ | ⟨rfl, hx⟩ <;> rcases key q x hq with ⟨rfl, hy⟩ | ⟨rfl, hy⟩
  · rfl
  · rw [hx] at hy; exact absurd hy (by decide)
  · rw [hx] at hy; exact absurd hy (by decide)
  · rfl

/-- Two parallel edges are two paths to the same vertex, and the second arrival
is rendered as a cycle marker. -/
theorem doubledEdge_marks :
    ¬ UniquePaths doubledEdge [0] ∧
    (render doubledEdge 3 [0]).map (fun r => r.2)
      = some ["A:\n", "    -> B:\n", "    -> B: <cycle...>\n"] := by
  refine ⟨?_, by decide⟩
  intro h
  have := h [0, 0] [0, 1] 1 (by simp [walkFrom, walk, doubledEdge])
    (by simp [walkFrom, walk, doubledEdge])
  simp at this

/-- When every vertex is the end of at most one sequence of positions from the
roots, one render call takes the already-shown branch at no arrival, its output
is the plain pre-order listing, and it has exactly one line for each reachable
vertex. -/
theorem render_of_uniquePaths {V : Type} [Fintype V] [DecidableEq V] (g : Graph V)
    (roots : List V) (fuel : Nat) (hfuel : Fintype.card V < fuel)
    (hforest : UniquePaths g roots) :
    ∃ (shown : List V) (visits : List (Visit V)),
      renderVisits g fuel roots = some (shown, visits) ∧
      (∀ e ∈ visits, e.cycle = false) ∧
      render g fuel roots
        = some (shown, visits.map (fun e => e.indent ++ g.type e.vertex ++ ":\n")) ∧
      preorderLoop (fun r => preorder g fuel r "") roots
        = some (visits.map (fun e => e.indent ++ g.type e.vertex ++ ":\n")) ∧
      (visits.map Visit.vertex).Nodup ∧
      (∀ v, v ∈ visits.map Visit.vertex ↔ g.Reachable roots v) := by
  obtain ⟨t, out, hv, hr⟩ := renderVisits_returns g fuel roots hfuel
  have I := renderVisits_inv g fuel roots t out hv
  have hiff := renderVisits_full_iff g fuel roots t out hv
  have hnc : ∀ e ∈ out, e.cycle = false :=
    rangeLoop_noCycle g (fun root s => printVertexVisits g fuel root s "")
      (fun x a b o hx => printVertexVisits_inv g fuel x a "" b o hx)
      (fun x a b o hx => printVertexVisits_noCycle g fuel x a "" b o hx)
      roots [] t out hv hforest (by simp)
  have hpre := rangeLoop_preorder g (fun root s => printVertexVisits g fuel root s "")
    (fun r => preorder g fuel r "")
    (fun x a b o hx hn => printVertexVisits_preorder g fuel x a "" b o hx hn)
    roots [] t out hv hnc
  have htext := text_of_full g out hnc
  have hfull := fullVertices_of_full out hnc
  refine ⟨t, out, hv, hnc, ?_, ?_, ?_, ?_⟩
  · rw [hr, htext]
  · rw [hpre, htext]
  · rw [← hfull]; exact I.nodup
  · intro v
    rw [← hfull]
    exact hiff v



theorem trail_of_walk {V : Type} (g : Graph V) :
    ∀ (p : List Nat) (v x : V), walk g p v = some x →
      ∃ tl, trail g p v = some (v :: tl) ∧ List.Chain' g.Edge (v :: tl) ∧
        (v :: tl).getLast? = some x := by
  intro p
  induction p with
  | nil =>
    intro v x h
    simp only [walk, Option.some.injEq] at h
    subst h
    exact ⟨[], rfl, List.chain'_singleton _, rfl⟩
  | cons j p ih =>
    intro v x h
    rcases hj : (g.outs v)[j]? with _ | w
    · simp [walk, hj] at h
    · simp only [walk, hj] at h
      obtain ⟨tl, h1, h2, h3⟩ := ih w x h
      refine ⟨w :: tl, by simp [trail, hj, h1], ?_, ?_⟩
      · exact List.chain'_cons.mpr ⟨List.getElem?_mem hj, h2⟩
      · rw [List.getLast?_cons_cons]; exact h3

theorem trail_head {V : Type} (g : Graph V) (p : List Nat) (v : V) (l : List V)
    (h : trail g p v = some l) : ∃ tl, l = v :: tl := by
  rcases p with _ | ⟨j, p⟩
  · simp only [trail, Option.some.injEq] at h
    exact ⟨[], h.symm⟩
  · rcases hj : (g.outs v)[j]? with _ | w
    · simp [trail, hj] at h
    · simp only [trail, hj, Option.map_eq_some'] at h
      obtain ⟨l1, _, hl⟩ := h
      exact ⟨l1, hl.symm⟩

theorem index_of_nodup {V : Type} (xs : List V) (i j : Nat) (a : V) (hn : xs.Nodup)
    (hi : xs[i]? = some a) (hj : xs[j]? = some a) : i = j := by
  have hlt : i < xs.length := by
    rcases Nat.lt_or_ge i xs.length with h | h
    · exact h
    · rw [List.getElem?_eq_none h] at hi
      cases hi
  exact List.getElem?_inj hlt hn (hi.trans hj.symm)

theorem trail_inj {V : Type} (g : Graph V) :
    ∀ (p q : List Nat) (v : V) (l : List V),
      (∀ u, Relation.ReflTransGen g.Edge v u → (g.outs u).Nodup) →
      trail g p v = some l → trail g q v = some l → p = q := by
  intro p
  induction p with
  | nil =>
    intro q v l _ hp hq
    simp only [trail, Option.some.injEq] at hp
    subst hp
    rcases q with _ | ⟨i, q⟩
    · rfl
    · rcases hi : (g.outs v)[i]? with _ | w
      · simp [trail, hi] at hq
      · simp only [trail, hi, Option.map_eq_some'] at hq
        obtain ⟨l1, hl1, hl⟩ := hq
        obtain ⟨tl, rfl⟩ := trail_head g q w l1 hl1
        simp at hl
  | cons j p ih =>
    intro q v l hnd hp hq
    rcases hj : (g.outs v)[j]? with _ | w
    · simp [trail, hj] at hp
    · simp only [trail, hj, Option.map_eq_some'] at hp
      obtain ⟨l1, hl1, hl⟩ := hp
      obtain ⟨tl, rfl⟩ := trail_head g p w l1 hl1
      subst hl
      rcases q with _ | ⟨i, q⟩
      · simp [trail] at hq
      · rcases hi : (g.outs v)[i]? with _ | w2
        · simp [trail, hi] at hq
        · simp only [trail, hi, Option.map_eq_some'] at hq
          obtain ⟨l2, hl2, hl⟩ := hq
          obtain ⟨tl2, rfl⟩ := trail_head g q w2 l2 hl2
          simp only [List.cons.injEq, true_and] at hl
          obtain ⟨hw, htl⟩ := hl
          subst hw
          subst htl
          have hij : j = i :=
            index_of_nodup (g.outs v) j i w2 (hnd v Relation.ReflTransGen.refl) hj hi
          have hedge : g.Edge v w2 := List.getElem?_mem hj
          have hpq := ih q w2 (w2 :: tl2)
            (fun u hu => hnd u (Relation.ReflTransGen.head hedge hu)) hl1 hl2
          rw [hij, hpq]

theorem walkFrom_cases {V : Type} (g : Graph V) (roots : List V) (p : List Nat) (x : V)
    (h : walkFrom g roots p = some x) :
    ∃ i p1 r, p = i :: p1 ∧ roots[i]? = some r ∧ walk g p1 r = some x := by
  rcases p with _ | ⟨i, p1⟩
  · simp [walkFrom] at h
  · rcases hi : roots[i]? with _ | r
    · simp [walkFrom, hi] at h
    · simp only [walkFrom, hi] at h
      exact ⟨i, p1, r, rfl, hi, h⟩

theorem uniquePaths_of_paths {V : Type} (g : Graph V) (roots : List V)
    (hroots : roots.Nodup) (hpath : AtMostOnePath g roots)
    (houts : ∀ v, g.Reachable roots v → (g.outs v).Nodup) : UniquePaths g roots := by
  intro p q x hp hq
  obtain ⟨i, p1, r, rfl, hi, hw⟩ := walkFrom_cases g roots p x hp
  obtain ⟨j, q1, r2, rfl, hj, hw2⟩ := walkFrom_cases g roots q x hq
  obtain ⟨tl, ht, hc, hl⟩ := trail_of_walk g p1 r x hw
  obtain ⟨tl2, ht2, hc2, hl2⟩ := trail_of_walk g q1 r2 x hw2
  have hr : r ∈ roots := List.getElem?_mem hi
  have hr2 : r2 ∈ roots := List.getElem?_mem hj
  have heq := hpath (r :: tl) (r2 :: tl2) x ⟨⟨r, hr, rfl⟩, hc, hl⟩ ⟨⟨r2, hr2, rfl⟩, hc2, hl2⟩
  simp only [List.cons.injEq] at heq
  obtain ⟨hrr, htl⟩ := heq
  subst hrr
  subst htl
  have hij : i = j := index_of_nodup roots i j r hroots hi hj
  have hpq := trail_inj g p1 q1 r (r :: tl)
    (fun u hu => houts u ⟨r, hr, hu⟩) ht ht2
  rw [hij, hpq]

theorem paths_of_two {g : Graph (Fin 2)} (h0 : ∀ b ∈ g.outs 0, b = 1) (h1 : g.outs 1 = []) :
    AtMostOnePath g [0] := by
  have key : ∀ (l : List (Fin 2)) (v : Fin 2), IsPathTo g [0] l v →
      (l = [0] ∧ v = 0) ∨ (l = [0, 1] ∧ v = 1) := by
    intro l v h
    obtain ⟨⟨r, hr, hhead⟩, hchain, hlast⟩ := h
    simp only [List.mem_singleton] at hr
    subst hr
    rcases l with _ | ⟨a, rest⟩
    · simp at hhead
    · simp only [List.head?_cons, Option.some.injEq] at hhead
      subst hhead
      rcases rest with _ | ⟨b, rest2⟩
      · left
        simp only [List.getLast?_singleton, Option.some.injEq] at hlast
        exact ⟨rfl, hlast.symm⟩
      · have hb : b = 1 := h0 b (List.chain'_cons.mp hchain).1
        subst hb
        rcases rest2 with _ | ⟨c, rest3⟩
        · right
          simp only [List.getLast?_cons_cons, List.getLast?_singleton,
            Option.some.injEq] at hlast
          exact ⟨rfl, hlast.symm⟩
        · have hc : c ∈ g.outs 1 :=
            (List.chain'_cons.mp (List.chain'_cons.mp hchain).2).1
          rw [h1] at hc
          simp at hc
  intro l1 l2 v hl1 hl2
  rcases key l1 v hl1 with ⟨rfl, hx⟩ | ⟨rfl, hx⟩ <;>
    rcases key l2 v hl2 with ⟨rfl, hy⟩ | ⟨rfl, hy⟩
  · rfl
  · rw [hx] at hy; exact absurd hy (by decide)
  · rw [hx] at hy; exact absurd hy (by decide)
  · rfl

/-- C19 (counterexample): in the graph with two out-edges from A to B and root
A the roots are pairwise distinct, every vertex is reachable from the roots by
at most one path, no vertex has two parents and no edge leads to the root, yet
the second arrival at B is written as a cycle-marker line. -/
theorem C19_parallel_edges_counterexample :
    [(0 : Fin 2)].Nodup ∧ AtMostOnePath doubledEdge [0] ∧
    (∀ a b v : Fin 2, v ∈ doubledEdge.outs a → v ∈ doubledEdge.outs b → a = b) ∧
    (∀ a : Fin 2, (0 : Fin 2) ∉ doubledEdge.outs a) ∧
    (render doubledEdge 3 [0]).map (fun r => r.2)
      = some ["A:\n", "    -> B:\n", "    -> B: <cycle...>\n"] := by
  refine ⟨by decide, ?_, by decide, by decide, by decide⟩
  exact paths_of_two (by decide) rfl

/-- C19 (amended): on a finite graph in which the roots are pairwise distinct,
every vertex is reachable from the roots by at most one path and no reachable
vertex has two out-edges to the same target, one render call takes the
already-shown branch at no arrival, so no cycle-marker line is written; its
output is the plain pre-order listing of the roots, and it has exactly one
line for each vertex reachable from the roots and none for any other. -/
theorem C19_forest_no_cycle_marker {V : Type} [Fintype V] [DecidableEq V] (g : Graph V)
    (roots : List V) (fuel : Nat) (hfuel : Fintype.card V < fuel) (hroots : roots.Nodup)
    (hpath : AtMostOnePath g roots)
    (houts : ∀ v, g.Reachable roots v → (g.outs v).Nodup) :
    ∃ (shown : List V) (visits : List (Visit V)),
      renderVisits g fuel roots = some (shown, visits) ∧
      (∀ e ∈ visits, e.cycle = false) ∧
      render g fuel roots
        = some (shown, visits.map (fun e => e.indent ++ g.type e.vertex ++ ":\n")) ∧
      preorderLoop (fun r => preorder g fuel r "") roots
        = some (visits.map (fun e => e.indent ++ g.type e.vertex ++ ":\n")) ∧
      (visits.map Visit.vertex).Nodup ∧
      (∀ v, v ∈ visits.map Visit.vertex ↔ g.Reachable roots v) :=
  render_of_uniquePaths g roots fuel hfuel (uniquePaths_of_paths g roots hroots hpath houts)

/-- C19 (amended) on the graph with the single edge A → B and root A. -/
theorem C19_forest_no_cycle_marker_witness :
    ∃ (shown : List (Fin 2)) (visits : List (Visit (Fin 2))),
      renderVisits edgePair 3 [0] = some (shown, visits) ∧
      (∀ e ∈ visits, e.cycle = false) ∧
      render edgePair 3 [0]
        = some (shown, visits.map (fun e => e.indent ++ edgePair.type e.vertex ++ ":\n")) ∧
      preorderLoop (fun r => preorder edgePair 3 r "") [0]
        = some (visits.map (fun e => e.indent ++ edgePair.type e.vertex ++ ":\n")) ∧
      (visits.map Visit.vertex).Nodup ∧
      (∀ v, v ∈ visits.map Visit.vertex ↔ edgePair.Reachable [0] v) :=
  C19_forest_no_cycle_marker edgePair [0] 3 (by simp) (by decide)
    (paths_of_two (by decide) rfl)
    (fun v _ => (by decide : ∀ u : Fin 2, (edgePair.outs u).Nodup) v)

end Eval
